import Mathlib

set_option maxRecDepth 8000

/-!
Verification of the streaming landmark audio fingerprinter
(`src/codegen_landmark.ts`, reproduced in `src/unnamed/part_002`, together
with the FFT engine `src/lib/fft.ts`).

Shallow embedding conventions:
* JS numbers that hold sample/spectral/threshold data are modelled by an
  arbitrary linear ordered field `F` (idealised finite floats); the
  transcendental functions `Math.log` / `Math.sqrt` are abstract
  parameters, so every theorem below holds for the real semantics.
* JS numbers that hold byte counts, array indices and frequency bins are
  modelled by `ℕ` / `ℤ`.
* The `Number.NEGATIVE_INFINITY` sentinel that marks an absent/invalidated
  peak slot is modelled by `Option`: `none` is the sentinel, and the JS
  comparisons against `-Infinity` (which are all false except `x > -Infinity`)
  are reproduced case by case at each use site.
* `Buffer.readInt16LE` throws on an out-of-range offset in Node; the
  embedding returns `Option ℤ` and a failing read aborts the surrounding
  `_transform` call (modelled as `none`).
* In-place arrays mutated by the FFT are modelled as functions `ℕ → F`
  updated by explicit state passing.
-/

/-- Pointwise update of a function-modelled array. -/
def fupd {F : Type} (f : ℕ → F) (i : ℕ) (v : F) : ℕ → F :=
  fun j => if j = i then v else f j

/-! ### FFT engine, src/lib/fft.ts -/

/-- Loop body accumulator of `reverseBits`: `y = (y << 1) | (x & 1); x >>>= 1`. -/
def reverseBitsAux : ℕ → ℕ → ℕ → ℕ
  | x, y, 0 => y
  | x, y, b + 1 => reverseBitsAux (x / 2) (y * 2 + x % 2) b

/-- `reverseBits(x, bits)` from src/lib/fft.ts: reverse of the lowest `bits` bits. -/
def reverseBits (x bits : ℕ) : ℕ := reverseBitsAux x 0 bits

/-- JS `1 << i`: the shift is taken mod 32 and the result is a signed 32-bit
integer, so `1 << 31` is negative.  Used by the FFT constructor's
power-of-two scan. -/
def jsShl1 (i : ℕ) : ℤ := ((2 ^ (i % 32) + 2 ^ 31 : ℤ) % 2 ^ 32) - 2 ^ 31

/-- The constructor loop `for (i = 0; i < 32; i++) if (1 << i === n) levels = i`;
`none` models `levels === -1`, i.e. the constructor throwing. -/
def fftLevels (n : ℕ) : Option ℕ :=
  (List.range 32).foldl (fun acc i => if jsShl1 i = (n : ℤ) then some i else acc) none

/-- The constructed `FFTNayuki` object: size, `levels = log2 n`, and the
precomputed trigonometric tables (`cosTable[i] = Math.cos(2*Math.PI*i/n)`,
`sinTable[i] = Math.sin(2*Math.PI*i/n)`; the table contents are data here,
instantiated with real cosines in the theorems that need them). -/
structure FFTObj (F : Type) where
  n : ℕ
  levels : ℕ
  cosTable : ℕ → F
  sinTable : ℕ → F

/-- The `FFTNayuki` constructor: computes `levels`, throwing (`none`, with no
partially constructed object) when no `i < 32` has `1 << i === n`; then fills
the trigonometric tables from the supplied table generators. -/
def fftNew {F : Type} (mkCos mkSin : ℕ → ℕ → F) (n : ℕ) : Option (FFTObj F) :=
  match fftLevels n with
  | none => none
  | some l => some ⟨n, l, mkCos n, mkSin n⟩

/-- One iteration of the bit-reversal addressing permutation:
`j = reverseBits(i, levels); if (j > i) swap entries i and j of both arrays`. -/
def bitrevSwap {F : Type} (levels : ℕ) (st : (ℕ → F) × (ℕ → F)) (i : ℕ) :
    (ℕ → F) × (ℕ → F) :=
  let j := reverseBits i levels
  if i < j then
    (fupd (fupd st.1 i (st.1 j)) j (st.1 i),
     fupd (fupd st.2 i (st.2 j)) j (st.2 i))
  else st

/-- The full bit-reversal pass `for (i = 0; i < n; i++) ...`. -/
def bitrevPass {F : Type} (n levels : ℕ) (st : (ℕ → F) × (ℕ → F)) :
    (ℕ → F) × (ℕ → F) :=
  (List.range n).foldl (bitrevSwap levels) st

/-- One butterfly of the Cooley-Tukey pass, acting on positions `j` and
`l = j + halfsize` with twiddle index `k`:
`tpre = real[l]*cos[k] + imag[l]*sin[k]`, `tpim = -real[l]*sin[k] + imag[l]*cos[k]`,
`real[l] = real[j] - tpre; imag[l] = imag[j] - tpim; real[j] += tpre; imag[j] += tpim`. -/
def butterfly {F : Type} [LinearOrderedField F] (cosT sinT : ℕ → F) (k j l : ℕ)
    (st : (ℕ → F) × (ℕ → F)) : (ℕ → F) × (ℕ → F) :=
  let tpre := st.1 l * cosT k + st.2 l * sinT k
  let tpim := -(st.1 l) * sinT k + st.2 l * cosT k
  let re1 := fupd st.1 l (st.1 j - tpre)
  let im1 := fupd st.2 l (st.2 j - tpim)
  (fupd re1 j (re1 j + tpre), fupd im1 j (im1 j + tpim))

/-- The inner loop `for (j = i, k = 0; j < i + halfsize; j++, k += tablestep)`. -/
def butterflyBlock {F : Type} [LinearOrderedField F] (cosT sinT : ℕ → F)
    (halfsize tablestep i : ℕ) (st : (ℕ → F) × (ℕ → F)) : (ℕ → F) × (ℕ → F) :=
  (List.range halfsize).foldl
    (fun s off => butterfly cosT sinT (off * tablestep) (i + off) (i + off + halfsize) s) st

/-- The middle loop `for (i = 0; i < n; i += size)` of one stage of size `size`. -/
def butterflyStage {F : Type} [LinearOrderedField F] (cosT sinT : ℕ → F)
    (n size : ℕ) (st : (ℕ → F) × (ℕ → F)) : (ℕ → F) × (ℕ → F) :=
  (List.range (n / size)).foldl
    (fun s b => butterflyBlock cosT sinT (size / 2) (n / size) (b * size) s) st

/-- `FFTNayuki.forward(real, imag)`: bit-reversal permutation followed by the
iterative Cooley-Tukey stages `for (size = 2; size <= n; size *= 2)`
(`size = 2^(t+1)` for `t < levels`, as `n = 2^levels`). -/
def fftForward {F : Type} [LinearOrderedField F] (cosT sinT : ℕ → F)
    (n levels : ℕ) (st : (ℕ → F) × (ℕ → F)) : (ℕ → F) × (ℕ → F) :=
  (List.range levels).foldl
    (fun s t => butterflyStage cosT sinT n (2 ^ (t + 1)) s) (bitrevPass n levels st)

/-- Modelled from the spec: `src/lib/fft.ts` declares the public field
`spectrum` and the build declaration files list a private method
`calculateSpectrum`, but the method body is absent from src (only its
declaration and its caller `Codegen._transform` are present).  Per the spec,
after `forward` the engine exposes `spectrum[i] = sqrt(real[i]^2 + imag[i]^2)`
for the first `n/2` bins. -/
def calculateSpectrum {F : Type} [LinearOrderedField F] (sqrtF : F → F) (n : ℕ)
    (st : (ℕ → F) × (ℕ → F)) : List F :=
  (List.range (n / 2)).map (fun i => sqrtF (st.1 i ^ 2 + st.2 i ^ 2))

/-! ### Codegen, src/unnamed/part_002 -/

/-- Abstract transcendental operations (`Math.log`, `Math.sqrt`). -/
structure MathOps (F : Type) where
  log : F → F
  sqrt : F → F

/-- The immutable configuration produced by `buildOptions`.  Numeric windows
are natural numbers; `bps_pos`/`step_pos` record that the byte width and hop
are positive (with `step = 0` or `bps = 0` the JS `while` loop would never
advance / re-read one frame forever, outside this model).  Fields that do not
affect the core semantics (`verbose`, `samplingRate`, `dt`, `maskDf`) are
omitted. -/
structure CodegenConfig (F : Type) where
  bps : ℕ
  mnlm : ℕ
  mppp : ℕ
  nfft : ℕ
  step : ℕ
  ifMin : ℕ
  ifMax : ℕ
  windowDf : ℕ
  windowDt : ℕ
  pruningDt : ℕ
  hwin : List F
  maskDecayLog : F
  eww : List (List F)
  bps_pos : 0 < bps
  step_pos : 0 < step

/-- A peak slot: `some (bin, magnitude)`, or `none` for the
`-Infinity`/unset sentinel pair. -/
abbrev Slot (F : Type) := Option (ℕ × F)

/-- One record of `this.marks`: frame timestamp `t` and the parallel
`i`/`v` arrays fused into one list of slots. -/
structure Mark (F : Type) where
  t : ℕ
  peaks : List (Slot F)

/-- The per-frame mutable state (everything but the byte buffer). -/
structure Core (F : Type) where
  stepIndex : ℕ
  marks : List (Mark F)
  threshold : List F

/-- Full `Codegen` stream state. -/
structure CState (F : Type) where
  buffer : List ℕ
  bufferDelta : ℕ
  core : Core F

/-- Constructor state: `stepIndex = 0`, `marks = []`,
`threshold = Array(this.options.nfft).fill(null).map(() => -3)`
(note the source allocates `nfft` entries, not `nfft / 2`). -/
def initCore {F : Type} [LinearOrderedField F] (cfg : CodegenConfig F) : Core F :=
  ⟨0, [], List.replicate cfg.nfft (-3)⟩

/-- `Codegen` constructor state: empty buffer, `bufferDelta = 0`. -/
def codegenInit {F : Type} [LinearOrderedField F] (cfg : CodegenConfig F) : CState F :=
  ⟨[], 0, initCore cfg⟩

/-- `Buffer.readInt16LE(off)`: two bytes, little endian, sign-extended;
`none` models the `RangeError` Node throws on an out-of-range offset. -/
def readInt16LE (buf : List ℕ) (off : ℤ) : Option ℤ :=
  if 0 ≤ off ∧ off + 2 ≤ (buf.length : ℤ) then
    let u : ℤ := (buf.getD off.toNat 0 : ℤ) + 256 * (buf.getD (off.toNat + 1) 0 : ℤ)
    some (if u < 32768 then u else u - 65536)
  else none

/-- The sample read of the frame-filling loop:
`this.buffer.readInt16LE((this.stepIndex + i) * bps - this.bufferDelta)`. -/
def frameSample {F : Type} (cfg : CodegenConfig F) (buf : List ℕ) (delta si i : ℕ) :
    Option ℤ :=
  readInt16LE buf (((si : ℤ) + i) * cfg.bps - delta)

/-- The windowed, scaled frame
`data[i] = hwin[i] * readInt16LE(...) / 2^(8*bps-1)`; `none` when any of the
`nfft` sample reads is out of range (the JS loop would throw).  The JS array
has length `nfft` and is only read below that index; the function totalizes
it with `0` beyond. -/
def buildFrameData {F : Type} [LinearOrderedField F] (cfg : CodegenConfig F)
    (buf : List ℕ) (delta si : ℕ) : Option (ℕ → F) :=
  if ∀ i < cfg.nfft, (frameSample cfg buf delta si i).isSome then
    some (fun i =>
      if i < cfg.nfft then
        cfg.hwin.getD i 0 * (((frameSample cfg buf delta si i).getD 0 : ℤ) : F) /
          (2 ^ (8 * cfg.bps - 1) : F)
      else 0)
  else none

/-- `this.fft.forward(data, image)` with `image = Array(nfft).fill(0)`,
followed by the (spec-modelled) spectrum exposure. -/
def fftRun {F : Type} [LinearOrderedField F] (sqrtF : F → F) (fft : FFTObj F)
    (data : ℕ → F) : List F :=
  calculateSpectrum sqrtF fft.n
    (fftForward fft.cosTable fft.sinTable fft.n fft.levels (data, fun _ => 0))

/-- The log-normal rescale
`spectrum[i] = Math.abs(spectrum[i]) * Math.sqrt(i + 16)`.  The source applies
it in place for `i` in `[ifMin, ifMax)` only; every downstream read of
`spectrum` is at such an index, so the boost is applied pointwise here. -/
def boostedSpectrum {F : Type} [LinearOrderedField F] (ops : MathOps F)
    (spec : List F) : ℕ → F :=
  fun i => |spec.getD i 0| * ops.sqrt ((i : F) + 16)

/-- `diff[i] = Math.max(Math.log(Math.max(1e-6, spectrum[i])) - threshold[i], 0)`. -/
def diffAt {F : Type} [LinearOrderedField F] (ops : MathOps F) (spec : ℕ → F)
    (thr : List F) (i : ℕ) : F :=
  max (ops.log (max (1 / 1000000) (spec i)) - thr.getD i 0) 0

/-- The entry gate `spectrum[i] > vLocMax[mnlm - 1]`: against an unset slot
(`-Infinity`) any finite value passes; against an empty candidate array
(`mnlm = 0`, JS reads `undefined`) the comparison is false. -/
def lastSlotGate {F : Type} [LinearOrderedField F] (s : F) (l : List (Slot F)) : Bool :=
  match l.getLast? with
  | none => false
  | some none => true
  | some (some (_, v)) => decide (v < s)

/-- Insert a qualifying local maximum into the descending-ordered candidate
list, shifting weaker entries down and dropping the overflow: the source scans
`j` from the bottom while `spectrum[i] > vLocMax[j-1]`, i.e. the new entry is
placed below every existing magnitude `≥ s` and above the rest. -/
def insertLocMax {F : Type} [LinearOrderedField F] (i : ℕ) (s : F) :
    List (Slot F) → List (Slot F)
  | [] => []
  | x :: xs =>
    match x with
    | some (b, v) =>
      if s ≤ v then some (b, v) :: insertLocMax i s xs
      else some (i, s) :: (some (b, v) :: xs).dropLast
    | none => some (i, s) :: (none :: xs).dropLast

/-- The local-maximum scan `for (i = ifMin + 1; i < ifMax - 1; i++)` with the
qualification `diff[i] > diff[i-1] && diff[i] > diff[i+1] && spectrum[i] > vLocMax[mnlm-1]`,
starting from `mnlm` unset slots. -/
def scanLocMax {F : Type} [LinearOrderedField F] (ops : MathOps F)
    (cfg : CodegenConfig F) (spec : ℕ → F) (thr : List F) : List (Slot F) :=
  (List.range' (cfg.ifMin + 1) (cfg.ifMax - 1 - (cfg.ifMin + 1))).foldl
    (fun acc i =>
      if diffAt ops spec thr (i - 1) < diffAt ops spec thr i ∧
         diffAt ops spec thr (i + 1) < diffAt ops spec thr i ∧
         lastSlotGate (spec i) acc then
        insertLocMax i (spec i) acc
      else acc)
    (List.replicate cfg.mnlm none)

/-- `eww[b][j]` (out-of-range reads modelled by `0`; real runs stay in range). -/
def ewwAt {F : Type} [LinearOrderedField F] (cfg : CodegenConfig F) (b j : ℕ) : F :=
  (cfg.eww.getD b []).getD j 0

/-- The threshold raise for one detected peak `b`:
`threshold[j] = Math.max(threshold[j], Math.log(spectrum[b]) + eww[b][j])`
for `j` in `[ifMin, ifMax)`. -/
def maskUpdatePeak {F : Type} [LinearOrderedField F] (ops : MathOps F)
    (cfg : CodegenConfig F) (spec : ℕ → F) (thr : List F) (b : ℕ) : List F :=
  thr.mapIdx (fun j x =>
    if cfg.ifMin ≤ j ∧ j < cfg.ifMax then max x (ops.log (spec b) + ewwAt cfg b j)
    else x)

/-- The valid prefix of the candidate array: the source loop breaks at the
first unset slot and `splice`s the remainder away. -/
def validPeaks {F : Type} (peaks : List (Slot F)) : List (Slot F) :=
  peaks.takeWhile (fun s => s.isSome)

/-- The threshold update over all valid peaks of the frame, in order. -/
def maskUpdate {F : Type} [LinearOrderedField F] (ops : MathOps F)
    (cfg : CodegenConfig F) (spec : ℕ → F) (peaks : List (Slot F)) (thr : List F) :
    List F :=
  peaks.foldl (fun th sl =>
    match sl with
    | some (b, _) => maskUpdatePeak ops cfg spec th b
    | none => th) thr

/-- Pruning of one slot at decayed threshold offset `c = maskDecayLog * (nm-1-i)`:
invalidate iff the bin is nonzero and `Math.log(v) < threshold[bin] + c`.
A sentinel slot stays sentinel (in JS all its comparisons are false). -/
def pruneSlotF {F : Type} [LinearOrderedField F] (ops : MathOps F) (thr : List F)
    (c : F) (sl : Slot F) : Slot F :=
  match sl with
  | some (b, v) => if b ≠ 0 ∧ ops.log v < thr.getD b 0 + c then none else some (b, v)
  | none => none

/-- The pruning loop `for (i = nm - 1; i >= Math.max(t0 + 1, 0); i--)` over the
post-push history (`nm = marks.length`, `t0 = nm - pruningDt - 1`): frames with
index `≥ nm - pruningDt` have each slot pruned; each frame is handled
independently, so the descending JS iteration is an indexed map. -/
def pruneMarks {F : Type} [LinearOrderedField F] (ops : MathOps F)
    (cfg : CodegenConfig F) (thr : List F) (marks : List (Mark F)) : List (Mark F) :=
  let nm := marks.length
  marks.mapIdx (fun i m =>
    if nm - cfg.pruningDt ≤ i then
      ⟨m.t, m.peaks.map (pruneSlotF ops thr (cfg.maskDecayLog * ((nm - 1 - i : ℕ) : F)))⟩
    else m)

/-- The packed hash `m2.i[k] + nfft/2 * (m.i[i] + nfft/2 * (t0 - j))`. -/
def hashOf {F : Type} (cfg : CodegenConfig F) (bk bi d : ℕ) : ℕ :=
  bk + cfg.nfft / 2 * (bi + cfg.nfft / 2 * d)

/-- The innermost pairing loop over the slots of earlier frame `j = t0 - d`:
emits `(m.t, hash)` for every valid slot whose bin differs from the anchor bin
`bi` by a nonzero amount `< windowDf`; returns the emissions, the updated
`nFingers`, and whether `nFingers >= mppp` fired (`continue loopCurrentPeaks`).
Sentinel slots emit nothing (their JS comparisons are false). -/
def scanPairsK {F : Type} [LinearOrderedField F] (cfg : CodegenConfig F)
    (tAnchor bi d : ℕ) (slots : List (Slot F)) (cnt : ℕ) :
    List (ℕ × ℕ) × ℕ × Bool :=
  match slots with
  | [] => ([], cnt, false)
  | sl :: rest =>
    match sl with
    | some (bk, _) =>
      if bk ≠ bi ∧ Nat.dist bk bi < cfg.windowDf then
        if cfg.mppp ≤ cnt + 1 then ([(tAnchor, hashOf cfg bk bi d)], cnt + 1, true)
        else
          let r := scanPairsK cfg tAnchor bi d rest (cnt + 1)
          ((tAnchor, hashOf cfg bk bi d) :: r.1, r.2.1, r.2.2)
      else scanPairsK cfg tAnchor bi d rest cnt
    | none => scanPairsK cfg tAnchor bi d rest cnt

/-- The middle pairing loop `for (j = t0; j >= Math.max(0, t0 - windowDt); j--)`,
iterated as the frame delta `d = t0 - j` over `[0, min t0 windowDt]`,
threading `nFingers` and stopping once it reaches `mppp`. -/
def scanPairsJ {F : Type} [LinearOrderedField F] (cfg : CodegenConfig F)
    (marks : List (Mark F)) (tAnchor bi t0 : ℕ) : List ℕ → ℕ → List (ℕ × ℕ)
  | [], _ => []
  | d :: ds, cnt =>
    let m2 := marks.getD (t0 - d) ⟨0, []⟩
    let r := scanPairsK cfg tAnchor bi d m2.peaks cnt
    if r.2.2 then r.1 else r.1 ++ scanPairsJ cfg marks tAnchor bi t0 ds r.2.1

/-- All emissions for one anchor slot of the finalized frame `t0`: nothing for
a sentinel anchor, otherwise the backward scan with `nFingers = 0`. -/
def anchorHashes {F : Type} [LinearOrderedField F] (cfg : CodegenConfig F)
    (marks : List (Mark F)) (t0 tAnchor : ℕ) (sl : Slot F) : List (ℕ × ℕ) :=
  match sl with
  | some (bi, _) =>
    scanPairsJ cfg marks tAnchor bi t0 (List.range (min t0 cfg.windowDt + 1)) 0
  | none => []

/-- The hash generation block: runs only when `t0 >= 0`
(`marks.length >= pruningDt + 1`), anchored at frame `t0 = nm - pruningDt - 1`,
one backward scan per anchor slot, emissions concatenated in anchor order. -/
def frameHashes {F : Type} [LinearOrderedField F] (cfg : CodegenConfig F)
    (marks : List (Mark F)) : List (ℕ × ℕ) :=
  if cfg.pruningDt + 1 ≤ marks.length then
    let t0 := marks.length - cfg.pruningDt - 1
    let m := marks.getD t0 ⟨0, []⟩
    (m.peaks.map (anchorHashes cfg marks t0 m.t)).flatten
  else []

/-- One iteration of the frame loop given the already-boosted spectrum:
advance `stepIndex`, detect local maxima, raise the threshold mask, push the
mark (timestamp `Math.round(stepIndex / step)`, exact as `stepIndex` is a
multiple of `step`), prune, generate hashes, splice the history
(`marks.splice(0, t0 + 1 - windowDt)`), and decay the whole threshold. -/
def processFrameData {F : Type} [LinearOrderedField F] (ops : MathOps F)
    (cfg : CodegenConfig F) (spec : ℕ → F) (c : Core F) : Core F × List (ℕ × ℕ) :=
  let si := c.stepIndex + cfg.step
  let peaks := validPeaks (scanLocMax ops cfg spec c.threshold)
  let thr1 := maskUpdate ops cfg spec peaks c.threshold
  let marks1 := c.marks ++ [⟨si / cfg.step, peaks⟩]
  let marks2 := pruneMarks ops cfg thr1 marks1
  let out := frameHashes cfg marks2
  let marks3 := marks2.drop (marks1.length - cfg.pruningDt - cfg.windowDt)
  (⟨si, marks3, thr1.map (fun x => x + cfg.maskDecayLog)⟩, out)

/-- The full body of one frame iteration: read and window the frame, run the
FFT, boost the spectrum, then `processFrameData`.  `none` when a sample read
is out of range. -/
def processFrame {F : Type} [LinearOrderedField F] (ops : MathOps F)
    (cfg : CodegenConfig F) (fft : FFTObj F) (buf : List ℕ) (delta : ℕ)
    (c : Core F) : Option (Core F × List (ℕ × ℕ)) :=
  match buildFrameData cfg buf delta c.stepIndex with
  | none => none
  | some data =>
    some (processFrameData ops cfg
      (boostedSpectrum ops (fftRun ops.sqrt fft data)) c)

/-- The `while ((stepIndex + nfft) * bps < buffer.length + bufferDelta)` loop,
accumulating the `(tcodes, hcodes)` batch.  The structural fuel bounds the
measure `buf.length + delta - stepIndex * bps`, which strictly decreases each
iteration; the wrapper `codegenLoop` supplies `buf.length + delta`, which is
always sufficient (`codegenLoop_eq`), so the exhausted-fuel arm is never
taken. -/
def codegenLoopF {F : Type} [LinearOrderedField F] (ops : MathOps F)
    (cfg : CodegenConfig F) (fft : FFTObj F) (buf : List ℕ) (delta : ℕ) :
    ℕ → Core F → List (ℕ × ℕ) → Option (Core F × List (ℕ × ℕ))
  | 0, c, acc =>
    if (c.stepIndex + cfg.nfft) * cfg.bps < buf.length + delta then none
    else some (c, acc)
  | fuel + 1, c, acc =>
    if (c.stepIndex + cfg.nfft) * cfg.bps < buf.length + delta then
      match buildFrameData cfg buf delta c.stepIndex with
      | none => none
      | some data =>
        let r := processFrameData ops cfg
          (boostedSpectrum ops (fftRun ops.sqrt fft data)) c
        codegenLoopF ops cfg fft buf delta fuel r.1 (acc ++ r.2)
    else some (c, acc)

/-- The frame loop with its canonical (always sufficient) fuel. -/
def codegenLoop {F : Type} [LinearOrderedField F] (ops : MathOps F)
    (cfg : CodegenConfig F) (fft : FFTObj F) (buf : List ℕ) (delta : ℕ)
    (c : Core F) (acc : List (ℕ × ℕ)) : Option (Core F × List (ℕ × ℕ)) :=
  codegenLoopF ops cfg fft buf delta (buf.length + delta) c acc

theorem codegenLoopF_succ {F : Type} [LinearOrderedField F] (ops : MathOps F)
    (cfg : CodegenConfig F) (fft : FFTObj F) (buf : List ℕ) (delta : ℕ) :
    ∀ (fuel : ℕ) (c : Core F) (acc : List (ℕ × ℕ)),
      buf.length + delta - c.stepIndex * cfg.bps ≤ fuel →
      codegenLoopF ops cfg fft buf delta (fuel + 1) c acc =
        codegenLoopF ops cfg fft buf delta fuel c acc := by
  intro fuel
  induction fuel with
  | zero =>
    intro c acc h
    have hmul : c.stepIndex * cfg.bps ≤ (c.stepIndex + cfg.nfft) * cfg.bps :=
      Nat.mul_le_mul_right _ (Nat.le_add_right _ _)
    have hg : ¬ (c.stepIndex + cfg.nfft) * cfg.bps < buf.length + delta := by
      omega
    simp only [codegenLoopF, if_neg hg]
  | succ fuel ih =>
    intro c acc h
    by_cases hg : (c.stepIndex + cfg.nfft) * cfg.bps < buf.length + delta
    · simp only [codegenLoopF, if_pos hg]
      cases hd : buildFrameData cfg buf delta c.stepIndex with
      | none => rfl
      | some data =>
        simp only []
        apply ih
        have hsi : (processFrameData ops cfg
            (boostedSpectrum ops (fftRun ops.sqrt fft data)) c).1.stepIndex =
            c.stepIndex + cfg.step := rfl
        rw [hsi]
        have h1 : c.stepIndex * cfg.bps ≤ (c.stepIndex + cfg.nfft) * cfg.bps :=
          Nat.mul_le_mul_right _ (Nat.le_add_right _ _)
        have h3 : (c.stepIndex + cfg.step) * cfg.bps =
            c.stepIndex * cfg.bps + cfg.step * cfg.bps := Nat.add_mul _ _ _
        have h4 : 0 < cfg.step * cfg.bps := Nat.mul_pos cfg.step_pos cfg.bps_pos
        omega
    · simp only [codegenLoopF, if_neg hg]

/-- One-step unfolding of the frame loop: the canonical fuel is sufficient. -/
theorem codegenLoop_eq {F : Type} [LinearOrderedField F] (ops : MathOps F)
    (cfg : CodegenConfig F) (fft : FFTObj F) (buf : List ℕ) (delta : ℕ)
    (c : Core F) (acc : List (ℕ × ℕ)) :
    codegenLoop ops cfg fft buf delta c acc =
      if (c.stepIndex + cfg.nfft) * cfg.bps < buf.length + delta then
        match buildFrameData cfg buf delta c.stepIndex with
        | none => none
        | some data =>
          let r := processFrameData ops cfg
            (boostedSpectrum ops (fftRun ops.sqrt fft data)) c
          codegenLoop ops cfg fft buf delta r.1 (acc ++ r.2)
      else some (c, acc) := by
  have h := codegenLoopF_succ ops cfg fft buf delta (buf.length + delta) c acc
    (by omega)
  rw [codegenLoop, ← h]
  rfl

/-- The buffer compaction after the frame loop:
`if (buffer.length > 1000000) { delta = buffer.length - 20000;
bufferDelta += delta; buffer = buffer.slice(delta); }`. -/
def compactBuffer (buf : List ℕ) (delta : ℕ) : List ℕ × ℕ :=
  if 1000000 < buf.length then
    (buf.drop (buf.length - 20000), delta + (buf.length - 20000))
  else (buf, delta)

theorem compactBuffer_sub (buf : List ℕ) (delta : ℕ) :
    ∀ b ∈ (compactBuffer buf delta).1, b ∈ buf := by
  intro b hb
  by_cases h : 1000000 < buf.length
  · simp only [compactBuffer, if_pos h] at hb
    exact List.drop_subset _ _ hb
  · simpa only [compactBuffer, if_neg h] using hb

/-- `_transform`: concatenate the chunk, run the frame loop, then compact the
buffer.  The batch is pushed downstream iff nonempty; the returned list is
the batch (possibly empty). -/
def codegenWrite {F : Type} [LinearOrderedField F] (ops : MathOps F)
    (cfg : CodegenConfig F) (fft : FFTObj F) (st : CState F) (chunk : List ℕ) :
    Option (CState F × List (ℕ × ℕ)) :=
  match codegenLoop ops cfg fft (st.buffer ++ chunk) st.bufferDelta st.core [] with
  | none => none
  | some r =>
    some (⟨(compactBuffer (st.buffer ++ chunk) st.bufferDelta).1,
           (compactBuffer (st.buffer ++ chunk) st.bufferDelta).2, r.1⟩, r.2)

theorem codegenWrite_none {F : Type} [LinearOrderedField F] (ops : MathOps F)
    (cfg : CodegenConfig F) (fft : FFTObj F) (st : CState F) (chunk : List ℕ)
    (h : codegenLoop ops cfg fft (st.buffer ++ chunk) st.bufferDelta st.core [] =
      none) : codegenWrite ops cfg fft st chunk = none := by
  unfold codegenWrite
  rw [h]

theorem codegenWrite_some {F : Type} [LinearOrderedField F] (ops : MathOps F)
    (cfg : CodegenConfig F) (fft : FFTObj F) (st : CState F) (chunk : List ℕ)
    (r : Core F × List (ℕ × ℕ))
    (h : codegenLoop ops cfg fft (st.buffer ++ chunk) st.bufferDelta st.core [] =
      some r) :
    codegenWrite ops cfg fft st chunk =
      some (⟨(compactBuffer (st.buffer ++ chunk) st.bufferDelta).1,
             (compactBuffer (st.buffer ++ chunk) st.bufferDelta).2, r.1⟩, r.2) := by
  unfold codegenWrite
  rw [h]

/-- Feed a list of chunks through successive `_transform` calls, collecting
the emitted batches; a throwing write destroys the stream (no further writes,
batches so far kept). -/
def codegenRun {F : Type} [LinearOrderedField F] (ops : MathOps F)
    (cfg : CodegenConfig F) (fft : FFTObj F) :
    CState F → List (List ℕ) → Option (CState F) × List (List (ℕ × ℕ))
  | st, [] => (some st, [])
  | st, ch :: rest =>
    match codegenWrite ops cfg fft st ch with
    | none => (none, [])
    | some r =>
      let t := codegenRun ops cfg fft r.1 rest
      (t.1, r.2 :: t.2)

/-! ### Basic frame-step facts -/

theorem processFrameData_stepIndex {F : Type} [LinearOrderedField F]
    (ops : MathOps F) (cfg : CodegenConfig F) (sp : ℕ → F) (c : Core F) :
    (processFrameData ops cfg sp c).1.stepIndex = c.stepIndex + cfg.step := rfl

theorem processFrameData_threshold {F : Type} [LinearOrderedField F]
    (ops : MathOps F) (cfg : CodegenConfig F) (sp : ℕ → F) (c : Core F) :
    (processFrameData ops cfg sp c).1.threshold =
      (maskUpdate ops cfg sp (validPeaks (scanLocMax ops cfg sp c.threshold))
        c.threshold).map (fun x => x + cfg.maskDecayLog) := rfl

theorem maskUpdatePeak_length {F : Type} [LinearOrderedField F]
    (ops : MathOps F) (cfg : CodegenConfig F) (sp : ℕ → F) (thr : List F) (b : ℕ) :
    (maskUpdatePeak ops cfg sp thr b).length = thr.length := by
  simp [maskUpdatePeak]

theorem maskUpdate_length {F : Type} [LinearOrderedField F]
    (ops : MathOps F) (cfg : CodegenConfig F) (sp : ℕ → F)
    (peaks : List (Slot F)) (thr : List F) :
    (maskUpdate ops cfg sp peaks thr).length = thr.length := by
  induction peaks generalizing thr with
  | nil => rfl
  | cons sl rest ih =>
    cases sl with
    | none => simpa [maskUpdate] using ih thr
    | some p => simpa [maskUpdate] using (ih _).trans (maskUpdatePeak_length ..)

theorem processFrameData_threshold_length {F : Type} [LinearOrderedField F]
    (ops : MathOps F) (cfg : CodegenConfig F) (sp : ℕ → F) (c : Core F) :
    (processFrameData ops cfg sp c).1.threshold.length = c.threshold.length := by
  rw [processFrameData_threshold]
  simp [maskUpdate_length]

theorem pruneMarks_length {F : Type} [LinearOrderedField F]
    (ops : MathOps F) (cfg : CodegenConfig F) (thr : List F)
    (marks : List (Mark F)) :
    (pruneMarks ops cfg thr marks).length = marks.length := by
  simp [pruneMarks]

theorem processFrameData_marks_length {F : Type} [LinearOrderedField F]
    (ops : MathOps F) (cfg : CodegenConfig F) (sp : ℕ → F) (c : Core F) :
    (processFrameData ops cfg sp c).1.marks.length =
      min (c.marks.length + 1) (cfg.pruningDt + cfg.windowDt) := by
  show ((pruneMarks ops cfg _ _).drop _).length = _
  rw [List.length_drop, pruneMarks_length]
  simp
  omega

/-- States of the per-frame core reachable from the constructor state by any
sequence of frame iterations, each with an arbitrary boosted spectrum.  Every
core state that occurs during a real run — after construction, after each
processed frame inside a `_transform` call, and at the end of each call — is
of this shape. -/
inductive CoreReach {F : Type} [LinearOrderedField F] (ops : MathOps F)
    (cfg : CodegenConfig F) : Core F → Prop
  | init : CoreReach ops cfg (initCore cfg)
  | frame (c : Core F) (sp : ℕ → F) :
      CoreReach ops cfg c → CoreReach ops cfg (processFrameData ops cfg sp c).1

theorem codegenLoop_reach {F : Type} [LinearOrderedField F] (ops : MathOps F)
    (cfg : CodegenConfig F) (fft : FFTObj F) (buf : List ℕ) (delta : ℕ)
    (c : Core F) (acc : List (ℕ × ℕ)) (r : Core F × List (ℕ × ℕ))
    (hr : codegenLoop ops cfg fft buf delta c acc = some r)
    (hc : CoreReach ops cfg c) : CoreReach ops cfg r.1 := by
  rw [codegenLoop] at hr
  revert hr hc
  generalize buf.length + delta = fuel
  induction fuel generalizing c acc with
  | zero =>
    intro hr hc
    rw [codegenLoopF] at hr
    split at hr
    · cases hr
    · cases hr; exact hc
  | succ fuel ih =>
    intro hr hc
    rw [codegenLoopF] at hr
    split at hr
    · cases hd : buildFrameData cfg buf delta c.stepIndex with
      | none => rw [hd] at hr; cases hr
      | some data =>
        rw [hd] at hr
        exact ih _ _ hr (CoreReach.frame c _ hc)
    · cases hr; exact hc

theorem codegenWrite_reach {F : Type} [LinearOrderedField F] (ops : MathOps F)
    (cfg : CodegenConfig F) (fft : FFTObj F) (st : CState F) (chunk : List ℕ)
    (r : CState F × List (ℕ × ℕ))
    (hr : codegenWrite ops cfg fft st chunk = some r)
    (hc : CoreReach ops cfg st.core) : CoreReach ops cfg r.1.core := by
  rcases hl : codegenLoop ops cfg fft (st.buffer ++ chunk) st.bufferDelta st.core []
    with _ | r'
  · simp only [codegenWrite, hl] at hr
    cases hr
  · simp only [codegenWrite, hl] at hr
    have := codegenLoop_reach ops cfg fft _ _ _ _ _ hl hc
    cases hr
    exact this

theorem codegenRun_reach {F : Type} [LinearOrderedField F] (ops : MathOps F)
    (cfg : CodegenConfig F) (fft : FFTObj F) (st : CState F)
    (chunks : List (List ℕ)) (st' : CState F)
    (hr : (codegenRun ops cfg fft st chunks).1 = some st')
    (hc : CoreReach ops cfg st.core) : CoreReach ops cfg st'.core := by
  induction chunks generalizing st with
  | nil => cases hr; exact hc
  | cons ch rest ih =>
    unfold codegenRun at hr
    rcases hw : codegenWrite ops cfg fft st ch with _ | r
    · rw [hw] at hr; cases hr
    · rw [hw] at hr
      exact ih r.1 hr (codegenWrite_reach ops cfg fft st ch r hw hc)

/-! ### The power-of-two scan of the FFT constructor -/

theorem foldl_scan_isSome (n : ℕ) (l : List ℕ) : ∀ acc : Option ℕ,
    ((l.foldl (fun a i => if jsShl1 i = (n : ℤ) then some i else a) acc).isSome) ↔
      acc.isSome ∨ ∃ i ∈ l, jsShl1 i = (n : ℤ) := by
  induction l with
  | nil => simp
  | cons x xs ih =>
    intro acc
    by_cases hx : jsShl1 x = (n : ℤ) <;> simp [List.foldl_cons, hx, ih] <;> tauto

theorem jsShl1_small (i : ℕ) (hi : i ≤ 30) : jsShl1 i = 2 ^ i := by
  unfold jsShl1
  rw [Nat.mod_eq_of_lt (by omega)]
  have h0 : (0 : ℤ) ≤ 2 ^ i + 2 ^ 31 := by positivity
  have h1 : (2 : ℤ) ^ i + 2 ^ 31 < 2 ^ 32 := by
    have h2 : (2 : ℤ) ^ i ≤ 2 ^ 30 := pow_le_pow_right (by norm_num) hi
    have h3 : (2 : ℤ) ^ 30 + 2 ^ 31 < 2 ^ 32 := by norm_num
    linarith
  rw [Int.emod_eq_of_lt h0 h1]
  ring

theorem jsShl1_31 : jsShl1 31 = -(2 ^ 31) := by norm_num [jsShl1]

theorem fftLevels_isSome_iff (n : ℕ) :
    (fftLevels n).isSome ↔ ∃ i, i ≤ 30 ∧ n = 2 ^ i := by
  unfold fftLevels
  rw [foldl_scan_isSome]
  simp only [Option.isSome_none, Bool.false_eq_true, false_or, List.mem_range]
  constructor
  · rintro ⟨i, hi32, he⟩
    by_cases h30 : i ≤ 30
    · rw [jsShl1_small i h30] at he
      exact ⟨i, h30, by exact_mod_cast he.symm⟩
    · have h31 : i = 31 := by omega
      subst h31
      rw [jsShl1_31] at he
      have hn : (0 : ℤ) ≤ (n : ℤ) := Int.ofNat_nonneg n
      omega
  · rintro ⟨i, h30, he⟩
    exact ⟨i, by omega, by rw [jsShl1_small i h30]; exact_mod_cast he.symm⟩

theorem fftNew_isSome_iff {F : Type} (mkCos mkSin : ℕ → ℕ → F) (n : ℕ) :
    (fftNew mkCos mkSin n).isSome ↔ (fftLevels n).isSome := by
  unfold fftNew
  cases fftLevels n <;> simp

/-! ### Concrete fixtures for witnesses -/

/-- Transcendental operations over `ℚ` for concrete evaluation; the claim
theorems hold for every choice of `log`/`sqrt`, so `id` is a legitimate
instantiation. -/
def opsQ : MathOps ℚ := ⟨id, id⟩

/-- The default numeric parameters of `buildOptions`
(`bps 2, mnlm 5, mppp 3, nfft 512, step 256, ifMin 0, ifMax 256, windowDf 60,
windowDt 96, pruningDt 24`); the field-valued entries hold placeholder values,
irrelevant to the statements that use this fixture. -/
def cfgDefaultQ : CodegenConfig ℚ :=
  ⟨2, 5, 3, 512, 256, 0, 256, 60, 96, 24,
   List.replicate 512 0, -1 / 200, [], by decide, by decide⟩

/-- A placeholder FFT object matching `cfgDefaultQ`. -/
def fftQ : FFTObj ℚ := ⟨512, 9, fun _ => 0, fun _ => 0⟩

/-! ### Claim C10 -/

/-- C10 (amended): the FFT constructor fails immediately, leaving no
partially constructed object (`fftNew` returns `none`), exactly when its size
argument is not of the form `2^i` with `i ≤ 30`; the JS power-of-two scan
`1 << i === n` uses a signed 32-bit shift, so the powers `2^31` and beyond
are rejected as well. -/
theorem claim_C10 {F : Type} (mkCos mkSin : ℕ → ℕ → F) (n : ℕ) :
    (fftNew mkCos mkSin n).isSome ↔ ∃ i, i ≤ 30 ∧ n = 2 ^ i :=
  (fftNew_isSome_iff mkCos mkSin n).trans (fftLevels_isSome_iff n)

/-- C10 counterexample: `2^31` is a power of two, yet the constructor throws
(the claim states that for every power-of-two `n` construction succeeds). -/
theorem claim_C10_counterexample :
    (2147483648 : ℕ) = 2 ^ 31 ∧
      fftNew (F := ℚ) (fun _ _ => 0) (fun _ _ => 0) 2147483648 = none := by
  refine ⟨by norm_num, ?_⟩
  rw [← Option.not_isSome_iff_eq_none, fftNew_isSome_iff, fftLevels_isSome_iff]
  rintro ⟨i, h30, he⟩
  have h2 : (2 : ℕ) ^ i ≤ 2 ^ 30 := Nat.pow_le_pow_right (by norm_num) h30
  omega

/-- C10 witness: the default size 512 is accepted. -/
theorem claim_C10_witness :
    (fftNew (F := ℚ) (fun _ _ => 0) (fun _ _ => 0) 512).isSome :=
  (claim_C10 (F := ℚ) (fun _ _ => 0) (fun _ _ => 0) 512).mpr
    ⟨9, by norm_num, by norm_num⟩

/-! ### Claim C4 -/

/-- C4 counterexample: right after construction with the default
configuration (`nfft = 512`), the threshold array has length `nfft = 512`,
not `nfft / 2 = 256` as claimed — the source allocates
`Array(this.options.nfft)`. -/
theorem claim_C4_counterexample :
    (initCore cfgDefaultQ).threshold.length = 512 ∧
      (initCore cfgDefaultQ).threshold.length ≠ cfgDefaultQ.nfft / 2 := by
  constructor <;> simp [initCore, cfgDefaultQ]

/-- C4 (amended): at every point after construction and after every frame,
the threshold array has length exactly `nfft` (not `nfft / 2`), and the
per-frame decay adds `maskDecayLog` to each of those `nfft` entries exactly
once per frame advance (the frame's final threshold is the mask-updated
threshold with `maskDecayLog` added pointwise). -/
theorem claim_C4 {F : Type} [LinearOrderedField F] (ops : MathOps F)
    (cfg : CodegenConfig F) :
    (∀ c : Core F, CoreReach ops cfg c → c.threshold.length = cfg.nfft) ∧
      (∀ (sp : ℕ → F) (c : Core F),
        (processFrameData ops cfg sp c).1.threshold =
          (maskUpdate ops cfg sp (validPeaks (scanLocMax ops cfg sp c.threshold))
            c.threshold).map (fun x => x + cfg.maskDecayLog)) := by
  constructor
  · intro c hc
    induction hc with
    | init => simp [initCore]
    | frame c sp _ ih => rw [processFrameData_threshold_length]; exact ih
  · intro sp c
    exact processFrameData_threshold ops cfg sp c

/-- C4 witness: the amended length invariant evaluated at the constructor
state of the default configuration. -/
theorem claim_C4_witness : (initCore cfgDefaultQ).threshold.length = 512 :=
  (claim_C4 opsQ cfgDefaultQ).1 (initCore cfgDefaultQ) CoreReach.init

/-! ### Claim C6 -/

/-- C6 (confirmed): at all times — after construction, after every processed
frame inside a write call, and at the end of every write call — the length of
the per-frame peak history `marks` is at most `windowDt + pruningDt + 1`. -/
theorem claim_C6 {F : Type} [LinearOrderedField F] (ops : MathOps F)
    (cfg : CodegenConfig F) (fft : FFTObj F) :
    (∀ c : Core F, CoreReach ops cfg c →
      c.marks.length ≤ cfg.windowDt + cfg.pruningDt + 1) ∧
      (∀ (chunks : List (List ℕ)) (st' : CState F),
        (codegenRun ops cfg fft (codegenInit cfg) chunks).1 = some st' →
          st'.core.marks.length ≤ cfg.windowDt + cfg.pruningDt + 1) := by
  have hA : ∀ c : Core F, CoreReach ops cfg c →
      c.marks.length ≤ cfg.windowDt + cfg.pruningDt + 1 := by
    intro c hc
    induction hc with
    | init => simp [initCore]
    | frame c sp _ ih =>
      rw [processFrameData_marks_length]
      omega
  refine ⟨hA, fun chunks st' hrun => hA _ ?_⟩
  exact codegenRun_reach ops cfg fft (codegenInit cfg) chunks st' hrun CoreReach.init

/-- C6 witness: the bound evaluated at the constructor state of the default
configuration. -/
theorem claim_C6_witness :
    (initCore cfgDefaultQ).marks.length ≤
      cfgDefaultQ.windowDt + cfgDefaultQ.pruningDt + 1 :=
  (claim_C6 opsQ cfgDefaultQ fftQ).1 (initCore cfgDefaultQ) CoreReach.init

/-! ### Claim C5: the pruning pass -/

theorem pruneSlotF_eq_none_iff {F : Type} [LinearOrderedField F] (ops : MathOps F)
    (thr : List F) (c : F) (b : ℕ) (v : F) :
    pruneSlotF ops thr c (some (b, v)) = none ↔
      b ≠ 0 ∧ ops.log v < thr.getD b 0 + c := by
  by_cases h : b ≠ 0 ∧ ops.log v < thr.getD b 0 + c <;> simp [pruneSlotF, h]

theorem pruneSlotF_bin0 {F : Type} [LinearOrderedField F] (ops : MathOps F)
    (thr : List F) (c : F) (v : F) :
    pruneSlotF ops thr c (some (0, v)) = some (0, v) := by
  simp [pruneSlotF]

theorem pruneMarks_slot {F : Type} [LinearOrderedField F] (ops : MathOps F)
    (cfg : CodegenConfig F) (thr : List F) (marks : List (Mark F)) (i : ℕ)
    (hi : i < marks.length) (hlo : marks.length - cfg.pruningDt ≤ i) (j : ℕ)
    (hj : j < (marks.getD i ⟨0, []⟩).peaks.length) :
    ((pruneMarks ops cfg thr marks).getD i ⟨0, []⟩).peaks.getD j none =
      pruneSlotF ops thr (cfg.maskDecayLog * ((marks.length - 1 - i : ℕ) : F))
        ((marks.getD i ⟨0, []⟩).peaks.getD j none) := by
  have hi' : i < (pruneMarks ops cfg thr marks).length := by
    rwa [pruneMarks_length]
  rw [List.getD_eq_getElem _ _ hi'] at *
  rw [List.getD_eq_getElem _ _ hi] at *
  simp only [pruneMarks, List.getElem_mapIdx, if_pos hlo] at *
  rw [List.getD_eq_getElem _ _ (by simpa using hj),
    List.getD_eq_getElem _ _ hj, List.getElem_map]

theorem pruneMarks_untouched {F : Type} [LinearOrderedField F] (ops : MathOps F)
    (cfg : CodegenConfig F) (thr : List F) (marks : List (Mark F)) (i : ℕ)
    (hlt : i < marks.length - cfg.pruningDt) :
    (pruneMarks ops cfg thr marks).getD i ⟨0, []⟩ = marks.getD i ⟨0, []⟩ := by
  have hi : i < marks.length := by omega
  have hi' : i < (pruneMarks ops cfg thr marks).length := by
    rwa [pruneMarks_length]
  rw [List.getD_eq_getElem _ _ hi', List.getD_eq_getElem _ _ hi]
  simp only [pruneMarks, List.getElem_mapIdx, if_neg (by omega : ¬ marks.length - cfg.pruningDt ≤ i)]

/-- C5 (confirmed): in the pruning pass over the post-push history (`nm`
records, `t0 = nm - pruningDt - 1`), (1) frames with index below
`max(t0+1, 0) = nm - pruningDt` are untouched; (2) for every frame index in
`[nm - pruningDt, nm - 1]`, a valid peak slot `(b, v)` is invalidated (set to
the sentinel) exactly when `b ≠ 0` and
`log v < threshold[b] + maskDecayLog * (nm - 1 - i)`; and (3) a slot whose bin
index is exactly 0 is never invalidated by pruning. -/
theorem claim_C5 {F : Type} [LinearOrderedField F] (ops : MathOps F)
    (cfg : CodegenConfig F) (thr : List F) (marks : List (Mark F)) :
    (∀ i, i < marks.length - cfg.pruningDt →
      (pruneMarks ops cfg thr marks).getD i ⟨0, []⟩ = marks.getD i ⟨0, []⟩) ∧
    (∀ i, marks.length - cfg.pruningDt ≤ i → i < marks.length →
      ∀ j b v, (marks.getD i ⟨0, []⟩).peaks.getD j none = some (b, v) →
        (((pruneMarks ops cfg thr marks).getD i ⟨0, []⟩).peaks.getD j none = none ↔
          b ≠ 0 ∧ ops.log v < thr.getD b 0 +
            cfg.maskDecayLog * ((marks.length - 1 - i : ℕ) : F))) ∧
    (∀ i, i < marks.length →
      ∀ j v, (marks.getD i ⟨0, []⟩).peaks.getD j none = some (0, v) →
        ((pruneMarks ops cfg thr marks).getD i ⟨0, []⟩).peaks.getD j none =
          some (0, v)) := by
  refine ⟨fun i hlt => pruneMarks_untouched ops cfg thr marks i hlt, ?_, ?_⟩
  · intro i hlo hi j b v hsl
    have hj : j < (marks.getD i ⟨0, []⟩).peaks.length := by
      by_contra hj
      rw [List.getD_eq_default _ _ (by omega)] at hsl
      cases hsl
    rw [pruneMarks_slot ops cfg thr marks i hi hlo j hj, hsl]
    exact pruneSlotF_eq_none_iff ops thr _ b v
  · intro i hi j v hsl
    have hj : j < (marks.getD i ⟨0, []⟩).peaks.length := by
      by_contra hj
      rw [List.getD_eq_default _ _ (by omega)] at hsl
      cases hsl
    by_cases hlo : marks.length - cfg.pruningDt ≤ i
    · rw [pruneMarks_slot ops cfg thr marks i hi hlo j hj, hsl]
      exact pruneSlotF_bin0 ops thr _ v
    · rw [pruneMarks_untouched ops cfg thr marks i (by omega)]
      exact hsl

/-- C5 witness: a concrete pruning pass over one frame — a dominated slot
with nonzero bin is invalidated, a slot with bin 0 survives. -/
theorem claim_C5_witness :
    (((pruneMarks opsQ cfgDefaultQ (List.replicate 512 0)
        [⟨1, [some (5, 1000), some (3, -5), some (0, -7)]⟩]).getD 0
          ⟨0, []⟩).peaks.getD 1 none = none) ∧
    (((pruneMarks opsQ cfgDefaultQ (List.replicate 512 0)
        [⟨1, [some (5, 1000), some (3, -5), some (0, -7)]⟩]).getD 0
          ⟨0, []⟩).peaks.getD 2 none = some (0, -7)) := by
  constructor
  · exact ((claim_C5 opsQ cfgDefaultQ (List.replicate 512 0)
      [⟨1, [some (5, 1000), some (3, -5), some (0, -7)]⟩]).2.1 0 (by decide)
      (by decide) 1 3 (-5) (by decide)).mpr (by norm_num [opsQ, cfgDefaultQ])
  · exact (claim_C5 opsQ cfgDefaultQ (List.replicate 512 0)
      [⟨1, [some (5, 1000), some (3, -5), some (0, -7)]⟩]).2.2 0 (by decide)
      2 (-7) (by decide)

/-! ### Claim C8: per-anchor fan-out cap -/

/-- JS `options.x || d`: the default is taken both when the option is absent
and when the given value is the falsy `0`. -/
def jsOrDefault (o : Option ℕ) (d : ℕ) : ℕ :=
  match o with
  | some v => if v = 0 then d else v
  | none => d

/-- `buildOptions` computes `mppp = options.mppp || 3`, so the effective
per-peak cap is never zero. -/
theorem jsOrDefault_pos (o : Option ℕ) (d : ℕ) (hd : 0 < d) :
    0 < jsOrDefault o d := by
  cases o with
  | none => simpa [jsOrDefault]
  | some v =>
    by_cases hv : v = 0 <;> simp [jsOrDefault, hv] <;> omega

theorem scanPairsK_spec {F : Type} [LinearOrderedField F] (cfg : CodegenConfig F)
    (tA bi d : ℕ) : ∀ (slots : List (Slot F)) (cnt : ℕ), cnt < cfg.mppp →
    (scanPairsK cfg tA bi d slots cnt).1.length =
        (scanPairsK cfg tA bi d slots cnt).2.1 - cnt ∧
      cnt ≤ (scanPairsK cfg tA bi d slots cnt).2.1 ∧
      (scanPairsK cfg tA bi d slots cnt).2.1 ≤ cfg.mppp ∧
      ((scanPairsK cfg tA bi d slots cnt).2.2 = false →
        (scanPairsK cfg tA bi d slots cnt).2.1 < cfg.mppp) := by
  intro slots
  induction slots with
  | nil =>
    intro cnt hcnt
    refine ⟨by simp [scanPairsK], by simp [scanPairsK], by simp [scanPairsK]; omega, ?_⟩
    intro _
    simpa [scanPairsK] using hcnt
  | cons sl rest ih =>
    intro cnt hcnt
    match sl with
    | none => simpa only [scanPairsK] using ih cnt hcnt
    | some (bk, v) =>
      by_cases hg : bk ≠ bi ∧ Nat.dist bk bi < cfg.windowDf
      · by_cases hm : cfg.mppp ≤ cnt + 1
        · refine ⟨?_, ?_, ?_, ?_⟩ <;>
            simp only [scanPairsK, if_pos hg, if_pos hm, List.length_cons,
              List.length_nil]
          · omega
          · omega
          · omega
          · intro hf
            simp at hf
        · obtain ⟨ha, hb, hc, hd⟩ := ih (cnt + 1) (by omega)
          refine ⟨?_, ?_, ?_, ?_⟩ <;>
            simp only [scanPairsK, if_pos hg, if_neg hm, List.length_cons]
          · omega
          · omega
          · omega
          · exact fun hf => lt_of_le_of_lt (by omega) (hd hf)
      · simpa only [scanPairsK, if_neg hg] using ih cnt hcnt

theorem scanPairsJ_length {F : Type} [LinearOrderedField F] (cfg : CodegenConfig F)
    (marks : List (Mark F)) (tA bi t0 : ℕ) : ∀ (ds : List ℕ) (cnt : ℕ),
    cnt < cfg.mppp →
    (scanPairsJ cfg marks tA bi t0 ds cnt).length ≤ cfg.mppp - cnt := by
  intro ds
  induction ds with
  | nil => intro cnt hcnt; simp [scanPairsJ]
  | cons d rest ih =>
    intro cnt hcnt
    have hK := scanPairsK_spec cfg tA bi d
      (marks.getD (t0 - d) ⟨0, []⟩).peaks cnt hcnt
    cases hstop : (scanPairsK cfg tA bi d (marks.getD (t0 - d) ⟨0, []⟩).peaks cnt).2.2 with
    | false =>
      have hrec := ih (scanPairsK cfg tA bi d (marks.getD (t0 - d) ⟨0, []⟩).peaks cnt).2.1
        (hK.2.2.2 hstop)
      simp only [scanPairsJ, hstop, Bool.false_eq_true, if_false, List.length_append]
      omega
    | true =>
      simp only [scanPairsJ, hstop, if_true]
      omega

theorem anchorHashes_length {F : Type} [LinearOrderedField F] (cfg : CodegenConfig F)
    (marks : List (Mark F)) (t0 tA : ℕ) (sl : Slot F) (hm : 1 ≤ cfg.mppp) :
    (anchorHashes cfg marks t0 tA sl).length ≤ cfg.mppp := by
  match sl with
  | none => simp [anchorHashes]
  | some (bi, v) =>
    have := scanPairsJ_length cfg marks tA bi t0
      (List.range (min t0 cfg.windowDt + 1)) 0 (by omega)
    simpa [anchorHashes] using by omega

/-- C8 (confirmed): no anchor peak of a finalized frame contributes more than
`mppp` emitted hashes — once `mppp` hashes have been emitted for an anchor,
its backward scan stops; generation continues with the next anchor, so a
frame's full emission is the concatenation of per-anchor lists each of length
at most `mppp` (hence at most `mppp` per anchor slot overall).  The
hypothesis `1 ≤ mppp` always holds for configurations built by
`buildOptions` (`mppp = options.mppp || 3`, see `jsOrDefault_pos`). -/
theorem claim_C8 {F : Type} [LinearOrderedField F] (cfg : CodegenConfig F)
    (marks : List (Mark F)) (hm : 1 ≤ cfg.mppp) :
    (∀ (t0 tA : ℕ) (sl : Slot F),
      (anchorHashes cfg marks t0 tA sl).length ≤ cfg.mppp) ∧
    (frameHashes cfg marks).length ≤
      cfg.mppp * (marks.getD (marks.length - cfg.pruningDt - 1) ⟨0, []⟩).peaks.length := by
  refine ⟨fun t0 tA sl => anchorHashes_length cfg marks t0 tA sl hm, ?_⟩
  rw [frameHashes]
  split
  · rw [List.length_flatten]
    set t0 := marks.length - cfg.pruningDt - 1 with ht0
    set m := marks.getD t0 ⟨0, []⟩ with hmk
    calc (List.map List.length (List.map (anchorHashes cfg marks t0 m.t) m.peaks)).sum
        ≤ (List.map List.length (List.map (anchorHashes cfg marks t0 m.t) m.peaks)).length
            * cfg.mppp := by
          apply List.sum_le_card_nsmul
          intro x hx
          simp only [List.map_map, List.mem_map, Function.comp] at hx
          obtain ⟨sl, _, rfl⟩ := hx
          exact anchorHashes_length cfg marks t0 m.t sl hm
      _ ≤ cfg.mppp * m.peaks.length := by
          simp [Nat.mul_comm]
  · simp

/-- C8 witness: a concrete anchor with one in-window partner and cap
`mppp = 1`. -/
def cfgCapQ : CodegenConfig ℚ :=
  ⟨2, 5, 1, 512, 256, 0, 256, 60, 96, 0,
   List.replicate 512 0, -1 / 200, [], by decide, by decide⟩

theorem claim_C8_witness :
    1 ≤ cfgCapQ.mppp ∧
      (anchorHashes cfgCapQ [⟨7, [some (5, 2), some (8, 3)]⟩] 0 7
        (some (5, 2))).length ≤ cfgCapQ.mppp :=
  ⟨by decide,
   (claim_C8 cfgCapQ [⟨7, [some (5, 2), some (8, 3)]⟩] (by decide)).1 0 7
     (some (5, 2))⟩

/-! ### Claim C2: bin-range invariant and hash packing -/

/-- Every valid slot's bin lies in the local-maximum scan range
`[ifMin + 1, ifMax - 2]`. -/
def SlotInRange {F : Type} (cfg : CodegenConfig F) (sl : Slot F) : Prop :=
  ∀ b v, sl = some (b, v) → cfg.ifMin + 1 ≤ b ∧ b + 2 ≤ cfg.ifMax

def MarksInRange {F : Type} (cfg : CodegenConfig F) (marks : List (Mark F)) : Prop :=
  ∀ m ∈ marks, ∀ sl ∈ m.peaks, SlotInRange cfg sl

theorem insertLocMax_mem {F : Type} [LinearOrderedField F] (i : ℕ) (s : F) :
    ∀ (l : List (Slot F)) (sl : Slot F), sl ∈ insertLocMax i s l →
      sl = some (i, s) ∨ sl ∈ l := by
  intro l
  induction l with
  | nil => intro sl h; cases h
  | cons x xs ih =>
    intro sl h
    cases x with
    | some p =>
      obtain ⟨b, v⟩ := p
      rw [insertLocMax] at h
      split at h
      · rcases List.mem_cons.mp h with h | h
        · right; rw [h]; exact List.mem_cons_self _ _
        · rcases ih sl h with h | h
          · left; exact h
          · right; exact List.mem_cons_of_mem _ h
      · rcases List.mem_cons.mp h with h | h
        · left; exact h
        · right; exact List.dropLast_subset _ h
    | none =>
      rw [insertLocMax] at h
      rcases List.mem_cons.mp h with h | h
      · left; exact h
      · right; exact List.dropLast_subset _ h

theorem scanLocMax_range {F : Type} [LinearOrderedField F] (ops : MathOps F)
    (cfg : CodegenConfig F) (spec : ℕ → F) (thr : List F) :
    ∀ sl ∈ scanLocMax ops cfg spec thr, SlotInRange cfg sl := by
  rw [scanLocMax]
  have hgen : ∀ (l : List ℕ) (acc : List (Slot F)),
      (∀ i ∈ l, cfg.ifMin + 1 ≤ i ∧ i + 2 ≤ cfg.ifMax) →
      (∀ sl ∈ acc, SlotInRange cfg sl) →
      ∀ sl ∈ l.foldl (fun acc i =>
        if diffAt ops spec thr (i - 1) < diffAt ops spec thr i ∧
           diffAt ops spec thr (i + 1) < diffAt ops spec thr i ∧
           lastSlotGate (spec i) acc then
          insertLocMax i (spec i) acc
        else acc) acc, SlotInRange cfg sl := by
    intro l
    induction l with
    | nil => intro acc _ hacc sl h; exact hacc sl h
    | cons x xs ih =>
      intro acc hl hacc sl h
      rw [List.foldl_cons] at h
      refine ih _ (fun i hi => hl i (List.mem_cons_of_mem _ hi)) ?_ sl h
      intro sl' hsl'
      split at hsl'
      · rcases insertLocMax_mem x (spec x) acc sl' hsl' with h | h
        · intro b v hbv
          rw [h] at hbv
          cases hbv
          exact hl x (List.mem_cons_self _ _)
        · exact hacc sl' h
      · exact hacc sl' hsl'
  intro sl h
  refine hgen _ _ ?_ ?_ sl h
  · intro i hi
    rw [List.mem_range'_1] at hi
    omega
  · intro sl' hsl'
    rw [List.eq_of_mem_replicate hsl']
    intro b v hbv
    cases hbv

theorem pruneSlotF_some {F : Type} [LinearOrderedField F] (ops : MathOps F)
    (thr : List F) (c : F) (sl : Slot F) (p : ℕ × F)
    (h : pruneSlotF ops thr c sl = some p) : sl = some p := by
  match sl with
  | none => cases h
  | some (b, v) =>
    rw [pruneSlotF] at h
    split at h
    · cases h
    · exact h

theorem mem_mapIdx_iff {α β : Type} (f : ℕ → α → β) (l : List α) (b : β) :
    b ∈ List.mapIdx f l ↔ ∃ i, ∃ h : i < l.length, f i (l.get ⟨i, h⟩) = b := by
  rw [List.mem_iff_getElem]
  constructor
  · rintro ⟨i, h, rfl⟩
    exact ⟨i, by simpa using h, by rw [List.getElem_mapIdx]; rfl⟩
  · rintro ⟨i, h, hb⟩
    exact ⟨i, by simpa using h, by rw [List.getElem_mapIdx]; exact hb⟩

theorem pruneMarks_range {F : Type} [LinearOrderedField F] (ops : MathOps F)
    (cfg : CodegenConfig F) (thr : List F) (marks : List (Mark F))
    (h : MarksInRange cfg marks) :
    MarksInRange cfg (pruneMarks ops cfg thr marks) := by
  intro m hm sl hsl
  rw [pruneMarks, mem_mapIdx_iff] at hm
  obtain ⟨i, hi, rfl⟩ := hm
  have horig : ∀ sl' ∈ (marks.get ⟨i, hi⟩).peaks, SlotInRange cfg sl' :=
    h _ (List.get_mem _ _ _)
  split at hsl
  · simp only [List.mem_map] at hsl
    obtain ⟨sl₀, hsl₀, rfl⟩ := hsl
    intro b v hbv
    exact horig sl₀ hsl₀ b v (pruneSlotF_some ops thr _ sl₀ _ hbv)
  · exact horig sl hsl

theorem processFrameData_range {F : Type} [LinearOrderedField F] (ops : MathOps F)
    (cfg : CodegenConfig F) (sp : ℕ → F) (c : Core F)
    (h : MarksInRange cfg c.marks) :
    MarksInRange cfg (processFrameData ops cfg sp c).1.marks := by
  intro m hm sl hsl
  have hm' : m ∈ pruneMarks ops cfg
      (maskUpdate ops cfg sp (validPeaks (scanLocMax ops cfg sp c.threshold))
        c.threshold)
      (c.marks ++ [⟨(c.stepIndex + cfg.step) / cfg.step,
        validPeaks (scanLocMax ops cfg sp c.threshold)⟩]) :=
    List.drop_subset _ _ hm
  refine pruneMarks_range ops cfg _ _ ?_ m hm' sl hsl
  intro m₀ hm₀ sl₀ hsl₀
  rcases List.mem_append.mp hm₀ with h₀ | h₀
  · exact h m₀ h₀ sl₀ hsl₀
  · rw [List.mem_singleton] at h₀
    subst h₀
    exact scanLocMax_range ops cfg sp c.threshold sl₀
      (List.takeWhile_subset _ hsl₀)

theorem coreReach_range {F : Type} [LinearOrderedField F] (ops : MathOps F)
    (cfg : CodegenConfig F) (c : Core F) (hc : CoreReach ops cfg c) :
    MarksInRange cfg c.marks := by
  induction hc with
  | init => intro m hm; cases hm
  | frame c sp _ ih => exact processFrameData_range ops cfg sp c ih

/-- Shape of every emitted `(tcode, hcode)` pair: the hash packs an earlier
bin, a later (anchor) bin and a frame delta, with the guard conditions of
the pairing loop. -/
def GoodPair {F : Type} (cfg : CodegenConfig F) (p : ℕ × ℕ) : Prop :=
  ∃ bk bi dd, p.2 = hashOf cfg bk bi dd ∧
    cfg.ifMin + 1 ≤ bk ∧ bk + 2 ≤ cfg.ifMax ∧
    cfg.ifMin + 1 ≤ bi ∧ bi + 2 ≤ cfg.ifMax ∧
    bk ≠ bi ∧ Nat.dist bk bi < cfg.windowDf ∧ dd ≤ cfg.windowDt

theorem scanPairsK_mem {F : Type} [LinearOrderedField F] (cfg : CodegenConfig F)
    (tA bi d : ℕ) : ∀ (slots : List (Slot F)) (cnt : ℕ) (p : ℕ × ℕ),
    p ∈ (scanPairsK cfg tA bi d slots cnt).1 →
      ∃ bk v, some (bk, v) ∈ slots ∧ bk ≠ bi ∧ Nat.dist bk bi < cfg.windowDf ∧
        p = (tA, hashOf cfg bk bi d) := by
  intro slots
  induction slots with
  | nil => intro cnt p hp; cases hp
  | cons sl rest ih =>
    intro cnt p hp
    cases sl with
    | none =>
      obtain ⟨bk, v, hmem, hg⟩ := ih cnt p (by simpa only [scanPairsK] using hp)
      exact ⟨bk, v, List.mem_cons_of_mem _ hmem, hg⟩
    | some q =>
      obtain ⟨bk₀, v₀⟩ := q
      by_cases hg : bk₀ ≠ bi ∧ Nat.dist bk₀ bi < cfg.windowDf
      · by_cases hm : cfg.mppp ≤ cnt + 1
        · simp only [scanPairsK, if_pos hg, if_pos hm, List.mem_singleton] at hp
          exact ⟨bk₀, v₀, List.mem_cons_self _ _, hg.1, hg.2, hp⟩
        · simp only [scanPairsK, if_pos hg, if_neg hm, List.mem_cons] at hp
          rcases hp with hp | hp
          · exact ⟨bk₀, v₀, List.mem_cons_self _ _, hg.1, hg.2, hp⟩
          · obtain ⟨bk, v, hmem, hg', hd', hp'⟩ := ih (cnt + 1) p hp
            exact ⟨bk, v, List.mem_cons_of_mem _ hmem, hg', hd', hp'⟩
      · obtain ⟨bk, v, hmem, hg'⟩ := ih cnt p (by simpa only [scanPairsK, if_neg hg] using hp)
        exact ⟨bk, v, List.mem_cons_of_mem _ hmem, hg'⟩

theorem scanPairsJ_mem {F : Type} [LinearOrderedField F] (cfg : CodegenConfig F)
    (marks : List (Mark F)) (tA bi t0 : ℕ) : ∀ (ds : List ℕ) (cnt : ℕ) (p : ℕ × ℕ),
    p ∈ scanPairsJ cfg marks tA bi t0 ds cnt →
      ∃ d ∈ ds, ∃ bk v, some (bk, v) ∈ (marks.getD (t0 - d) ⟨0, []⟩).peaks ∧
        bk ≠ bi ∧ Nat.dist bk bi < cfg.windowDf ∧ p = (tA, hashOf cfg bk bi d) := by
  intro ds
  induction ds with
  | nil => intro cnt p hp; cases hp
  | cons d rest ih =>
    intro cnt p hp
    rw [scanPairsJ] at hp
    split at hp
    · obtain ⟨bk, v, hmem, hg⟩ := scanPairsK_mem cfg tA bi d _ cnt p hp
      exact ⟨d, List.mem_cons_self _ _, bk, v, hmem, hg⟩
    · rcases List.mem_append.mp hp with hp | hp
      · obtain ⟨bk, v, hmem, hg⟩ := scanPairsK_mem cfg tA bi d _ _ p hp
        exact ⟨d, List.mem_cons_self _ _, bk, v, hmem, hg⟩
      · obtain ⟨d', hd', rest'⟩ := ih _ p hp
        exact ⟨d', List.mem_cons_of_mem _ hd', rest'⟩

theorem frameHashes_good {F : Type} [LinearOrderedField F] (cfg : CodegenConfig F)
    (marks : List (Mark F)) (hwf : MarksInRange cfg marks) :
    ∀ p ∈ frameHashes cfg marks, GoodPair cfg p := by
  intro p hp
  rw [frameHashes] at hp
  split at hp
  · rename_i hnm
    simp only [List.mem_flatten, List.mem_map] at hp
    obtain ⟨l, ⟨sl, hsl, rfl⟩, hpl⟩ := hp
    set t0 := marks.length - cfg.pruningDt - 1 with ht0
    have ht0lt : t0 < marks.length := by omega
    have hmem_t0 : marks.getD t0 ⟨0, []⟩ ∈ marks := by
      rw [List.getD_eq_getElem _ _ ht0lt]
      exact List.getElem_mem _
    cases sl with
    | none => cases hpl
    | some q =>
      obtain ⟨bi, vi⟩ := q
      simp only [anchorHashes] at hpl
      obtain ⟨d, hd, bk, v, hmem, hne, hdist, rfl⟩ :=
        scanPairsJ_mem cfg marks _ bi t0 _ 0 p hpl
      have hdw : d ≤ cfg.windowDt := by
        rw [List.mem_range] at hd
        omega
      have hbi := hwf _ hmem_t0 _ hsl bi vi rfl
      have hjlt : t0 - d < marks.length := by omega
      have hmem_j : marks.getD (t0 - d) ⟨0, []⟩ ∈ marks := by
        rw [List.getD_eq_getElem _ _ hjlt]
        exact List.getElem_mem _
      have hbk := hwf _ hmem_j _ hmem bk v rfl
      exact ⟨bk, bi, d, rfl, hbk.1, hbk.2, hbi.1, hbi.2, hne, hdist, hdw⟩
  · cases hp

theorem processFrameData_good {F : Type} [LinearOrderedField F] (ops : MathOps F)
    (cfg : CodegenConfig F) (sp : ℕ → F) (c : Core F)
    (h : MarksInRange cfg c.marks) :
    ∀ p ∈ (processFrameData ops cfg sp c).2, GoodPair cfg p := by
  intro p hp
  refine frameHashes_good cfg _ ?_ p hp
  refine pruneMarks_range ops cfg _ _ ?_
  intro m₀ hm₀ sl₀ hsl₀
  rcases List.mem_append.mp hm₀ with h₀ | h₀
  · exact h m₀ h₀ sl₀ hsl₀
  · rw [List.mem_singleton] at h₀
    subst h₀
    exact scanLocMax_range ops cfg sp c.threshold sl₀
      (List.takeWhile_subset _ hsl₀)

theorem codegenLoop_good {F : Type} [LinearOrderedField F] (ops : MathOps F)
    (cfg : CodegenConfig F) (fft : FFTObj F) (buf : List ℕ) (delta : ℕ)
    (c : Core F) (acc : List (ℕ × ℕ)) (r : Core F × List (ℕ × ℕ))
    (hr : codegenLoop ops cfg fft buf delta c acc = some r)
    (hacc : ∀ p ∈ acc, GoodPair cfg p) (hc : MarksInRange cfg c.marks) :
    ∀ p ∈ r.2, GoodPair cfg p := by
  rw [codegenLoop] at hr
  revert hr hacc hc
  generalize buf.length + delta = fuel
  induction fuel generalizing c acc with
  | zero =>
    intro hr hacc hc
    rw [codegenLoopF] at hr
    split at hr
    · cases hr
    · cases hr; exact hacc
  | succ fuel ih =>
    intro hr hacc hc
    rw [codegenLoopF] at hr
    split at hr
    · cases hd : buildFrameData cfg buf delta c.stepIndex with
      | none => rw [hd] at hr; cases hr
      | some data =>
        rw [hd] at hr
        refine ih _ _ hr ?_ (processFrameData_range ops cfg _ c hc)
        intro p hp
        rcases List.mem_append.mp hp with hp | hp
        · exact hacc p hp
        · exact processFrameData_good ops cfg _ c hc p hp
    · cases hr; exact hacc

theorem codegenRun_good {F : Type} [LinearOrderedField F] (ops : MathOps F)
    (cfg : CodegenConfig F) (fft : FFTObj F) :
    ∀ (chunks : List (List ℕ)) (st : CState F), CoreReach ops cfg st.core →
    ∀ p ∈ (codegenRun ops cfg fft st chunks).2.flatten, GoodPair cfg p := by
  intro chunks
  induction chunks with
  | nil => intro st _ p hp; cases hp
  | cons ch rest ih =>
    intro st hst p hp
    rw [codegenRun] at hp
    rcases hw : codegenWrite ops cfg fft st ch with _ | r
    · rw [hw] at hp; cases hp
    · rw [hw] at hp
      simp only [List.flatten_cons, List.mem_append] at hp
      rcases hp with hp | hp
      · rcases hwl : codegenLoop ops cfg fft (st.buffer ++ ch) st.bufferDelta st.core []
          with _ | r'
        · simp only [codegenWrite, hwl] at hw
          cases hw
        · simp only [codegenWrite, hwl] at hw
          have hgood := codegenLoop_good ops cfg fft _ _ _ _ _ hwl
            (fun p hp => absurd hp (List.not_mem_nil p))
            (coreReach_range ops cfg _ hst)
          cases hw
          exact hgood p hp
      · exact ih r.1 (codegenWrite_reach ops cfg fft st ch r hw hst) p hp

theorem hashOf_decode {F : Type} (cfg : CodegenConfig F) (bk bi dd : ℕ)
    (hbk : bk < cfg.nfft / 2) (hbi : bi < cfg.nfft / 2) :
    hashOf cfg bk bi dd % (cfg.nfft / 2) = bk ∧
      hashOf cfg bk bi dd / (cfg.nfft / 2) % (cfg.nfft / 2) = bi ∧
      hashOf cfg bk bi dd / (cfg.nfft / 2 * (cfg.nfft / 2)) = dd := by
  have hH : 0 < cfg.nfft / 2 := by omega
  unfold hashOf
  refine ⟨?_, ?_, ?_⟩
  · rw [Nat.add_mul_mod_self_left, Nat.mod_eq_of_lt hbk]
  · rw [Nat.add_mul_div_left _ _ hH, Nat.div_eq_of_lt hbk, Nat.zero_add,
      Nat.add_mul_mod_self_left, Nat.mod_eq_of_lt hbi]
  · rw [← Nat.div_div_eq_div_mul, Nat.add_mul_div_left _ _ hH,
      Nat.div_eq_of_lt hbk, Nat.zero_add, Nat.add_mul_div_left _ _ hH,
      Nat.div_eq_of_lt hbi, Nat.zero_add]

/-- C2 (confirmed): for every hash `h` emitted by any run of the landmark
pair generator (with `N = nfft`, `H = N/2`), the decode
`bin_earlier = h % H`, `bin_later = (h / H) % H`, `frameDelta = h / (H * H)`
satisfies `frameDelta ≤ windowDt`, `bin_earlier < H`, `bin_later < H`,
`bin_earlier ≠ bin_later` and `|bin_earlier - bin_later| < windowDf`
(`0 ≤` each component holds by the ℕ typing).  The hypothesis
`ifMax ≤ nfft / 2` is the configuration sanity bound stated by the spec
(`ifMax` defaults to `nfft / 2` and indexes the `nfft / 2`-point spectrum). -/
theorem claim_C2 {F : Type} [LinearOrderedField F] (ops : MathOps F)
    (cfg : CodegenConfig F) (fft : FFTObj F) (hIf : cfg.ifMax ≤ cfg.nfft / 2)
    (chunks : List (List ℕ)) :
    ∀ p ∈ (codegenRun ops cfg fft (codegenInit cfg) chunks).2.flatten,
      p.2 / (cfg.nfft / 2 * (cfg.nfft / 2)) ≤ cfg.windowDt ∧
      p.2 % (cfg.nfft / 2) < cfg.nfft / 2 ∧
      p.2 / (cfg.nfft / 2) % (cfg.nfft / 2) < cfg.nfft / 2 ∧
      p.2 % (cfg.nfft / 2) ≠ p.2 / (cfg.nfft / 2) % (cfg.nfft / 2) ∧
      Nat.dist (p.2 % (cfg.nfft / 2)) (p.2 / (cfg.nfft / 2) % (cfg.nfft / 2)) <
        cfg.windowDf := by
  intro p hp
  obtain ⟨bk, bi, dd, hps, hbk1, hbk2, hbi1, hbi2, hne, hdist, hdd⟩ :=
    codegenRun_good ops cfg fft chunks (codegenInit cfg) CoreReach.init p hp
  have hbk : bk < cfg.nfft / 2 := by omega
  have hbi : bi < cfg.nfft / 2 := by omega
  obtain ⟨h1, h2, h3⟩ := hashOf_decode cfg bk bi dd hbk hbi
  rw [hps, h1, h2, h3]
  exact ⟨hdd, hbk, hbi, hne, hdist⟩

/-- A small configuration for end-to-end witnesses:
`nfft 8, step 4, bps 2, mnlm 2, mppp 3, ifMin 0, ifMax 4, windowDf 60,
windowDt 2, pruningDt 0`, rectangular window scaled so samples pass through
unchanged, constant `-100` mask. -/
def cfgSmallQ : CodegenConfig ℚ :=
  ⟨2, 2, 3, 8, 4, 0, 4, 60, 2, 0, List.replicate 8 32768, -1,
   List.replicate 4 (List.replicate 4 (-100)), by decide, by decide⟩

/-- An FFT object of size 8 with constant tables (the claim theorems hold for
any table contents). -/
def fftSmallQ : FFTObj ℚ := ⟨8, 3, fun _ => 1, fun _ => 0⟩

/-- 13 concrete 16-bit little-endian samples
`[0, -4, 2, -5, 3, -2, 2, 4, -4, -5, 3, 3, 4]` — two full frames at
`step = 4`; the run emits the pair `(2, 25)`. -/
def bytesSmallW : List ℕ :=
  [0, 0, 252, 255, 2, 0, 251, 255, 3, 0, 254, 255, 2, 0, 4, 0,
   252, 255, 251, 255, 3, 0, 3, 0, 4, 0]

theorem claim_C2_witness :
    ((2, 25) : ℕ × ℕ) ∈
      (codegenRun opsQ cfgSmallQ fftSmallQ (codegenInit cfgSmallQ)
        [bytesSmallW]).2.flatten ∧
    (25 : ℕ) % (cfgSmallQ.nfft / 2) ≠
      25 / (cfgSmallQ.nfft / 2) % (cfgSmallQ.nfft / 2) ∧
    Nat.dist ((25 : ℕ) % (cfgSmallQ.nfft / 2))
      (25 / (cfgSmallQ.nfft / 2) % (cfgSmallQ.nfft / 2)) < cfgSmallQ.windowDf := by
  have hmem : ((2, 25) : ℕ × ℕ) ∈
      (codegenRun opsQ cfgSmallQ fftSmallQ (codegenInit cfgSmallQ)
        [bytesSmallW]).2.flatten :=
    of_decide_eq_true (by with_unfolding_all rfl)
  have h := claim_C2 opsQ cfgSmallQ fftSmallQ (by decide) [bytesSmallW]
    (2, 25) hmem
  exact ⟨hmem, h.2.2.2.1, h.2.2.2.2⟩

/-! ### Claim C9: silence -/

/-- An all-zero byte buffer. -/
def ZeroBuf (l : List ℕ) : Prop := ∀ b ∈ l, b = 0

/-- Silent core: uniform threshold curve, every history record has an empty
peak list. -/
def SilentCore {F : Type} [LinearOrderedField F] (cfg : CodegenConfig F)
    (c : Core F) : Prop :=
  (∃ x : F, c.threshold = List.replicate cfg.nfft x) ∧
    ∀ m ∈ c.marks, m.peaks = []

theorem zeroBuf_getD (buf : List ℕ) (h : ZeroBuf buf) (k : ℕ) :
    buf.getD k 0 = 0 := by
  by_cases hk : k < buf.length
  · rw [List.getD_eq_getElem _ _ hk]
    exact h _ (List.getElem_mem _)
  · exact List.getD_eq_default _ _ (by omega)

theorem readInt16LE_zero (buf : List ℕ) (h : ZeroBuf buf) (off : ℤ) :
    readInt16LE buf off = none ∨ readInt16LE buf off = some 0 := by
  rw [readInt16LE]
  split
  · right
    simp only [zeroBuf_getD buf h]
    norm_num
  · left; rfl

theorem buildFrameData_zero {F : Type} [LinearOrderedField F]
    (cfg : CodegenConfig F) (buf : List ℕ) (delta si : ℕ) (h : ZeroBuf buf)
    (data : ℕ → F) (hd : buildFrameData cfg buf delta si = some data) :
    ∀ i, data i = 0 := by
  intro i
  rw [buildFrameData] at hd
  split at hd
  · cases hd
    rcases readInt16LE_zero buf h (((si : ℤ) + i) * cfg.bps - delta) with hz | hz <;>
      simp [frameSample, hz]
  · cases hd

theorem fftState_zero {F : Type} [LinearOrderedField F] (cosT sinT : ℕ → F)
    (n levels : ℕ) (st : (ℕ → F) × (ℕ → F))
    (h : ∀ i, st.1 i = 0 ∧ st.2 i = 0) :
    ∀ i, (fftForward cosT sinT n levels st).1 i = 0 ∧
      (fftForward cosT sinT n levels st).2 i = 0 := by
  have hswap1 : ∀ (st : (ℕ → F) × (ℕ → F)) (x : ℕ),
      (∀ i, st.1 i = 0 ∧ st.2 i = 0) →
      ∀ i, (bitrevSwap levels st x).1 i = 0 ∧ (bitrevSwap levels st x).2 i = 0 := by
    intro st x h i
    have h1 : ∀ i, st.1 i = 0 := fun i => (h i).1
    have h2 : ∀ i, st.2 i = 0 := fun i => (h i).2
    rw [bitrevSwap]
    split <;> simp [fupd, h1, h2]
  have hbfly : ∀ (k j l : ℕ) (st : (ℕ → F) × (ℕ → F)),
      (∀ i, st.1 i = 0 ∧ st.2 i = 0) →
      ∀ i, (butterfly cosT sinT k j l st).1 i = 0 ∧
        (butterfly cosT sinT k j l st).2 i = 0 := by
    intro k j l st h i
    have h1 : ∀ i, st.1 i = 0 := fun i => (h i).1
    have h2 : ∀ i, st.2 i = 0 := fun i => (h i).2
    rw [butterfly]
    simp [fupd, h1, h2]
  have hblock : ∀ (hs ts i0 : ℕ) (st : (ℕ → F) × (ℕ → F)),
      (∀ i, st.1 i = 0 ∧ st.2 i = 0) →
      ∀ i, (butterflyBlock cosT sinT hs ts i0 st).1 i = 0 ∧
        (butterflyBlock cosT sinT hs ts i0 st).2 i = 0 := by
    intro hs ts i0 st h
    rw [butterflyBlock]
    generalize List.range hs = l
    induction l generalizing st with
    | nil => exact h
    | cons x xs ih => exact fun i => ih _ (hbfly _ _ _ _ h) i
  have hstage : ∀ (size : ℕ) (st : (ℕ → F) × (ℕ → F)),
      (∀ i, st.1 i = 0 ∧ st.2 i = 0) →
      ∀ i, (butterflyStage cosT sinT n size st).1 i = 0 ∧
        (butterflyStage cosT sinT n size st).2 i = 0 := by
    intro size st h
    rw [butterflyStage]
    generalize List.range (n / size) = l
    induction l generalizing st with
    | nil => exact h
    | cons x xs ih => exact fun i => ih _ (hblock _ _ _ _ h) i
  have hinit : ∀ i, (bitrevPass n levels st).1 i = 0 ∧
      (bitrevPass n levels st).2 i = 0 := by
    rw [bitrevPass]
    generalize List.range n = l
    induction l generalizing st with
    | nil => exact h
    | cons x xs ih => exact fun i => ih _ (fun j => hswap1 _ _ h j) i
  rw [fftForward]
  generalize List.range levels = l
  revert hinit
  generalize bitrevPass n levels st = s0
  intro hinit
  induction l generalizing s0 with
  | nil => exact hinit
  | cons x xs ih => exact fun i => ih _ (hstage _ _ hinit) i

theorem fftRun_zero {F : Type} [LinearOrderedField F] (sqrtF : F → F)
    (hsqrt : sqrtF 0 = 0) (fft : FFTObj F) (data : ℕ → F)
    (hdata : ∀ i, data i = 0) : ∀ i, (fftRun sqrtF fft data).getD i 0 = 0 := by
  intro i
  rw [fftRun, calculateSpectrum]
  by_cases hi : i < (List.range (fft.n / 2)).length
  · rw [List.getD_eq_getElem _ _ (by simpa using hi), List.getElem_map]
    have hz := fftState_zero fft.cosTable fft.sinTable fft.n fft.levels
      (data, fun _ => 0) (fun j => ⟨hdata j, rfl⟩)
    rw [(hz _).1, (hz _).2]
    simpa using hsqrt
  · exact List.getD_eq_default _ _ (by simpa using hi)

theorem boostedSpectrum_zero {F : Type} [LinearOrderedField F] (ops : MathOps F)
    (spec : List F) (hspec : ∀ i, spec.getD i 0 = 0) :
    ∀ i, boostedSpectrum ops spec i = 0 := by
  intro i
  rw [boostedSpectrum, hspec i]
  simp

theorem validPeaks_replicate_none {F : Type} (k : ℕ) :
    validPeaks (List.replicate k (none : Slot F)) = [] := by
  cases k with
  | zero => rfl
  | succ k => simp [validPeaks, List.replicate_succ]

theorem scanLocMax_silent {F : Type} [LinearOrderedField F] (ops : MathOps F)
    (cfg : CodegenConfig F) (spec : ℕ → F) (x : F)
    (hspec : ∀ i, spec i = 0) (hIf : cfg.ifMax ≤ cfg.nfft) :
    scanLocMax ops cfg spec (List.replicate cfg.nfft x) =
      List.replicate cfg.mnlm none := by
  rw [scanLocMax]
  have hdiff : ∀ i, cfg.ifMin ≤ i → i < cfg.ifMax →
      diffAt ops spec (List.replicate cfg.nfft x) i =
        max (ops.log (max (1 / 1000000) 0) - x) 0 := by
    intro i _ hi2
    rw [diffAt, hspec i, List.getD_eq_getElem _ _ (by simp; omega),
      List.getElem_replicate]
  have hstep : ∀ i ∈ List.range' (cfg.ifMin + 1) (cfg.ifMax - 1 - (cfg.ifMin + 1)),
      ∀ acc : List (Slot F),
      (if diffAt ops spec (List.replicate cfg.nfft x) (i - 1) <
            diffAt ops spec (List.replicate cfg.nfft x) i ∧
          diffAt ops spec (List.replicate cfg.nfft x) (i + 1) <
            diffAt ops spec (List.replicate cfg.nfft x) i ∧
          lastSlotGate (spec i) acc then
        insertLocMax i (spec i) acc
      else acc) = acc := by
    intro i hi acc
    rw [List.mem_range'_1] at hi
    rw [if_neg]
    rintro ⟨h1, _, _⟩
    rw [hdiff (i - 1) (by omega) (by omega), hdiff i (by omega) (by omega)] at h1
    exact lt_irrefl _ h1
  generalize hl : List.range' (cfg.ifMin + 1) (cfg.ifMax - 1 - (cfg.ifMin + 1)) = l
  rw [hl] at hstep
  clear hl
  induction l with
  | nil => rfl
  | cons y ys ih =>
    rw [List.foldl_cons, hstep y (List.mem_cons_self _ _)]
    exact ih fun i hi acc => hstep i (List.mem_cons_of_mem _ hi) acc

theorem frameHashes_empty {F : Type} [LinearOrderedField F]
    (cfg : CodegenConfig F) (marks : List (Mark F))
    (h : ∀ m ∈ marks, m.peaks = []) : frameHashes cfg marks = [] := by
  rw [frameHashes]
  split
  · have hpk : (marks.getD (marks.length - cfg.pruningDt - 1) ⟨0, []⟩).peaks = [] := by
      by_cases hlt : marks.length - cfg.pruningDt - 1 < marks.length
      · rw [List.getD_eq_getElem _ _ hlt]
        exact h _ (List.getElem_mem _)
      · rw [List.getD_eq_default _ _ (by omega)]
    simp only [hpk, List.map_nil, List.flatten_nil]
  · rfl

theorem processFrameData_silent {F : Type} [LinearOrderedField F] (ops : MathOps F)
    (cfg : CodegenConfig F) (sp : ℕ → F) (c : Core F)
    (hspec : ∀ i, sp i = 0) (hc : SilentCore cfg c) (hIf : cfg.ifMax ≤ cfg.nfft) :
    (processFrameData ops cfg sp c).2 = [] ∧
      SilentCore cfg (processFrameData ops cfg sp c).1 := by
  obtain ⟨⟨x, hthr⟩, hmarks⟩ := hc
  have hscan : validPeaks (scanLocMax ops cfg sp c.threshold) = [] := by
    rw [hthr, scanLocMax_silent ops cfg sp x hspec hIf, validPeaks_replicate_none]
  have hmask : maskUpdate ops cfg sp
      (validPeaks (scanLocMax ops cfg sp c.threshold)) c.threshold = c.threshold := by
    rw [hscan]; rfl
  have hmarks1 : ∀ m ∈ c.marks ++ [(⟨(c.stepIndex + cfg.step) / cfg.step,
      validPeaks (scanLocMax ops cfg sp c.threshold)⟩ : Mark F)], m.peaks = [] := by
    intro m hm
    rcases List.mem_append.mp hm with hmem | hmem
    · exact hmarks _ hmem
    · rw [List.mem_singleton.mp hmem]
      exact hscan
  have hempty2 : ∀ m ∈ pruneMarks ops cfg
      (maskUpdate ops cfg sp (validPeaks (scanLocMax ops cfg sp c.threshold))
        c.threshold)
      (c.marks ++ [(⟨(c.stepIndex + cfg.step) / cfg.step,
        validPeaks (scanLocMax ops cfg sp c.threshold)⟩ : Mark F)]), m.peaks = [] := by
    intro m hm
    rw [pruneMarks, mem_mapIdx_iff] at hm
    obtain ⟨i, hi, rfl⟩ := hm
    have horig := hmarks1 _ (List.get_mem _ _ hi)
    split
    · show (_ : Mark F).peaks = []
      simp only []
      rw [horig]
      rfl
    · exact horig
  refine ⟨?_, ⟨x + cfg.maskDecayLog, ?_⟩, ?_⟩
  · exact frameHashes_empty cfg _ hempty2
  · show (maskUpdate ops cfg sp _ c.threshold).map _ = _
    rw [hmask, hthr, List.map_replicate]
  · show ∀ m ∈ List.drop _ (pruneMarks ops cfg _ _), m.peaks = []
    intro m hm
    exact hempty2 m (List.drop_subset _ _ hm)

theorem codegenLoopF_silent {F : Type} [LinearOrderedField F] (ops : MathOps F)
    (cfg : CodegenConfig F) (fft : FFTObj F) (buf : List ℕ) (delta : ℕ)
    (hsqrt : ops.sqrt 0 = 0) (hIf : cfg.ifMax ≤ cfg.nfft) (hbuf : ZeroBuf buf) :
    ∀ (fuel : ℕ) (c : Core F) (acc : List (ℕ × ℕ)), SilentCore cfg c →
      codegenLoopF ops cfg fft buf delta fuel c acc = none ∨
        ∃ c', codegenLoopF ops cfg fft buf delta fuel c acc = some (c', acc) ∧
          SilentCore cfg c' := by
  intro fuel
  induction fuel with
  | zero =>
    intro c acc hc
    rw [codegenLoopF]
    split
    · left; rfl
    · right; exact ⟨c, rfl, hc⟩
  | succ fuel ih =>
    intro c acc hc
    rw [codegenLoopF]
    split
    · cases hd : buildFrameData cfg buf delta c.stepIndex with
      | none => left; rfl
      | some data =>
        have hdata := buildFrameData_zero cfg buf delta c.stepIndex hbuf data hd
        have hspec : ∀ i, boostedSpectrum ops (fftRun ops.sqrt fft data) i = 0 :=
          boostedSpectrum_zero ops _ (fftRun_zero ops.sqrt hsqrt fft data hdata)
        obtain ⟨hout, hc'⟩ := processFrameData_silent ops cfg
          (boostedSpectrum ops (fftRun ops.sqrt fft data)) c hspec
          ⟨hc.1, hc.2⟩ hIf
        simp only [hout, List.append_nil]
        exact ih _ acc hc'
    · right; exact ⟨c, rfl, hc⟩

theorem codegenWrite_silent {F : Type} [LinearOrderedField F] (ops : MathOps F)
    (cfg : CodegenConfig F) (fft : FFTObj F) (st : CState F) (chunk : List ℕ)
    (hsqrt : ops.sqrt 0 = 0) (hIf : cfg.ifMax ≤ cfg.nfft)
    (hbuf : ZeroBuf st.buffer) (hch : ZeroBuf chunk)
    (hc : SilentCore cfg st.core) :
    codegenWrite ops cfg fft st chunk = none ∨
      ∃ st', codegenWrite ops cfg fft st chunk = some (st', []) ∧
        ZeroBuf st'.buffer ∧ SilentCore cfg st'.core := by
  have hbuf' : ZeroBuf (st.buffer ++ chunk) := by
    intro b hb
    rcases List.mem_append.mp hb with hb | hb
    · exact hbuf b hb
    · exact hch b hb
  rcases codegenLoopF_silent ops cfg fft (st.buffer ++ chunk) st.bufferDelta
      hsqrt hIf hbuf' ((st.buffer ++ chunk).length + st.bufferDelta) st.core [] hc
    with hl | ⟨c', hl, hc'⟩
  · left
    exact codegenWrite_none ops cfg fft st chunk hl
  · right
    refine ⟨⟨(compactBuffer (st.buffer ++ chunk) st.bufferDelta).1,
             (compactBuffer (st.buffer ++ chunk) st.bufferDelta).2, c'⟩,
      codegenWrite_some ops cfg fft st chunk (c', []) hl, ?_, hc'⟩
    show ZeroBuf (compactBuffer (st.buffer ++ chunk) st.bufferDelta).1
    exact fun b hb => hbuf' b (compactBuffer_sub _ _ b hb)

/-- C9 (confirmed): for every input stream consisting entirely of zero bytes,
and for every way of chunking it into writes, the fingerprinter emits no
output: every write call's batch is empty, so nothing is pushed downstream
(the source pushes only when `tcodes.length > 0`).  The hypotheses are the
real-square-root fact `sqrt 0 = 0` (spectrum of the zero frame) and the
configuration sanity bound `ifMax ≤ nfft` (the threshold curve has `nfft`
entries and the scan reads `threshold[i]` for `i < ifMax`). -/
theorem claim_C9 {F : Type} [LinearOrderedField F] (ops : MathOps F)
    (cfg : CodegenConfig F) (fft : FFTObj F) (hsqrt : ops.sqrt 0 = 0)
    (hIf : cfg.ifMax ≤ cfg.nfft) (chunks : List (List ℕ))
    (hz : ∀ ch ∈ chunks, ZeroBuf ch) :
    ∀ out ∈ (codegenRun ops cfg fft (codegenInit cfg) chunks).2, out = [] := by
  suffices h : ∀ (chunks : List (List ℕ)), (∀ ch ∈ chunks, ZeroBuf ch) →
      ∀ st : CState F, ZeroBuf st.buffer → SilentCore cfg st.core →
      ∀ out ∈ (codegenRun ops cfg fft st chunks).2, out = [] by
    refine h chunks hz (codegenInit cfg) (fun b hb => absurd hb (List.not_mem_nil b))
      ⟨⟨-3, rfl⟩, fun m hm => absurd hm (List.not_mem_nil m)⟩
  intro chunks hz
  induction chunks with
  | nil => intro st _ _ out hout; cases hout
  | cons ch rest ih =>
    intro st hbuf hc out hout
    rw [codegenRun] at hout
    rcases codegenWrite_silent ops cfg fft st ch hsqrt hIf hbuf
        (hz ch (List.mem_cons_self _ _)) hc with hw | ⟨st', hw, hbuf', hc'⟩
    · rw [hw] at hout
      cases hout
    · rw [hw] at hout
      simp only [] at hout
      rcases List.mem_cons.mp hout with hout | hout
      · exact hout
      · exact ih (fun c hc => hz c (List.mem_cons_of_mem _ hc)) st' hbuf' hc' out hout

/-- C9 witness: a concrete all-zero stream of two chunks through the small
configuration emits nothing (every batch is empty). -/
theorem claim_C9_witness :
    ((codegenRun opsQ cfgSmallQ fftSmallQ (codegenInit cfgSmallQ)
      [List.replicate 20 0, List.replicate 20 0]).2).all List.isEmpty = true := by
  rw [List.all_eq_true]
  intro out hout
  rw [claim_C9 opsQ cfgSmallQ fftSmallQ rfl (by decide)
    [List.replicate 20 0, List.replicate 20 0]
    (by
      intro ch hch b hb
      rcases List.mem_cons.mp hch with h | h
      · rw [h] at hb; exact List.eq_of_mem_replicate hb
      · rw [List.mem_singleton.mp h] at hb; exact List.eq_of_mem_replicate hb)
    out hout]
  rfl

/-! ### Claims C1 and C7: buffer-offset simulation and chunking invariance -/

/-- The reference `_transform` with the compaction cap raised (the block
`if (buffer.length > 1000000) ...` never fires): it keeps the whole byte
stream and leaves `bufferDelta` untouched. -/
def codegenWriteRef {F : Type} [LinearOrderedField F] (ops : MathOps F)
    (cfg : CodegenConfig F) (fft : FFTObj F) (st : CState F) (chunk : List ℕ) :
    Option (CState F × List (ℕ × ℕ)) :=
  match codegenLoop ops cfg fft (st.buffer ++ chunk) st.bufferDelta st.core [] with
  | none => none
  | some r => some (⟨st.buffer ++ chunk, st.bufferDelta, r.1⟩, r.2)

/-- The reference run (compaction never triggered). -/
def codegenRunRef {F : Type} [LinearOrderedField F] (ops : MathOps F)
    (cfg : CodegenConfig F) (fft : FFTObj F) :
    CState F → List (List ℕ) → Option (CState F) × List (List (ℕ × ℕ))
  | st, [] => (some st, [])
  | st, ch :: rest =>
    match codegenWriteRef ops cfg fft st ch with
    | none => (none, [])
    | some r =>
      let t := codegenRunRef ops cfg fft r.1 rest
      (t.1, r.2 :: t.2)

theorem readInt16LE_append (buf ch : List ℕ) (off : ℤ) (v : ℤ)
    (h : readInt16LE buf off = some v) : readInt16LE (buf ++ ch) off = some v := by
  rw [readInt16LE] at h ⊢
  split at h
  · rename_i hin
    rw [if_pos (by simp; omega)]
    have h1 : (buf ++ ch).getD off.toNat 0 = buf.getD off.toNat 0 := by
      have hlt : off.toNat < buf.length := by omega
      rw [List.getD_eq_getElem _ _ hlt,
        List.getD_eq_getElem _ _ (by simp; omega), List.getElem_append,
        dif_pos hlt]
    have h2 : (buf ++ ch).getD (off.toNat + 1) 0 = buf.getD (off.toNat + 1) 0 := by
      have hlt : off.toNat + 1 < buf.length := by omega
      rw [List.getD_eq_getElem _ _ hlt,
        List.getD_eq_getElem _ _ (by simp; omega), List.getElem_append,
        dif_pos hlt]
    rw [h1, h2]
    exact h
  · cases h

theorem readInt16LE_drop (buf : List ℕ) (delta : ℕ) (off : ℤ)
    (hoff : (delta : ℤ) ≤ off) (hdel : delta ≤ buf.length) :
    readInt16LE (buf.drop delta) (off - delta) = readInt16LE buf off := by
  rw [readInt16LE, readInt16LE]
  have hlen : ((buf.drop delta).length : ℤ) = (buf.length : ℤ) - delta := by
    rw [List.length_drop]
    omega
  by_cases hin : 0 ≤ off ∧ off + 2 ≤ (buf.length : ℤ)
  · rw [if_pos (by omega), if_pos hin]
    have hg1 : (buf.drop delta).getD (off - delta).toNat 0 = buf.getD off.toNat 0 := by
      have hlt : (off - delta).toNat < (buf.drop delta).length := by
        rw [List.length_drop]; omega
      rw [List.getD_eq_getElem _ _ hlt, List.getD_eq_getElem _ _ (by omega),
        List.getElem_drop]
      congr 1
      omega
    have hg2 : (buf.drop delta).getD ((off - delta).toNat + 1) 0 =
        buf.getD (off.toNat + 1) 0 := by
      have hlt : (off - delta).toNat + 1 < (buf.drop delta).length := by
        rw [List.length_drop]; omega
      rw [List.getD_eq_getElem _ _ hlt, List.getD_eq_getElem _ _ (by omega),
        List.getElem_drop]
      congr 1
      omega
    rw [hg1, hg2]
  · rw [if_neg (by omega), if_neg hin]

theorem frameSample_drop {F : Type} (cfg : CodegenConfig F) (buf : List ℕ)
    (delta si : ℕ) (hsi : delta ≤ si * cfg.bps) (hdel : delta ≤ buf.length) :
    ∀ i, frameSample cfg (buf.drop delta) delta si i = frameSample cfg buf 0 si i := by
  intro i
  rw [frameSample, frameSample]
  have hoff : (delta : ℤ) ≤ ((si : ℤ) + i) * cfg.bps := by
    have h1 : (si : ℤ) * cfg.bps ≤ ((si : ℤ) + i) * cfg.bps := by
      apply mul_le_mul_of_nonneg_right _ (by positivity)
      omega
    have h2 : (delta : ℤ) ≤ (si : ℤ) * cfg.bps := by exact_mod_cast hsi
    omega
  have := readInt16LE_drop buf delta (((si : ℤ) + i) * cfg.bps) hoff hdel
  rw [show ((si : ℤ) + i) * cfg.bps - (0 : ℕ) = ((si : ℤ) + i) * cfg.bps by
    norm_num]
  exact this

theorem buildFrameData_drop {F : Type} [LinearOrderedField F]
    (cfg : CodegenConfig F) (buf : List ℕ) (delta si : ℕ)
    (hsi : delta ≤ si * cfg.bps) (hdel : delta ≤ buf.length) :
    buildFrameData cfg (buf.drop delta) delta si = buildFrameData cfg buf 0 si := by
  have hfs : frameSample cfg (buf.drop delta) delta si =
      frameSample cfg buf 0 si := funext (frameSample_drop cfg buf delta si hsi hdel)
  rw [buildFrameData, buildFrameData, hfs]

theorem buildFrameData_isSome {F : Type} [LinearOrderedField F]
    (cfg : CodegenConfig F) (buf : List ℕ) (delta si : ℕ)
    (hsi : delta ≤ si * cfg.bps)
    (hg : (si + cfg.nfft) * cfg.bps < buf.length + delta) :
    (buildFrameData cfg buf delta si).isSome := by
  rw [buildFrameData, if_pos]
  · rfl
  · intro i hi
    rw [frameSample, readInt16LE, if_pos]
    · rfl
    · have h1 : (si + i + 1) * cfg.bps ≤ (si + cfg.nfft) * cfg.bps :=
        Nat.mul_le_mul_right _ (by omega)
      have h2 : delta ≤ si * cfg.bps := hsi
      have h3 : si * cfg.bps ≤ (si + i) * cfg.bps :=
        Nat.mul_le_mul_right _ (by omega)
      have h4 : (si + i + 1) * cfg.bps = (si + i) * cfg.bps + cfg.bps :=
        Nat.succ_mul _ _
      have h5 : 0 < cfg.bps := cfg.bps_pos
      constructor
      · have : (delta : ℤ) ≤ ((si : ℤ) + i) * cfg.bps := by
          have := h2.trans h3
          push_cast
          exact_mod_cast Nat.cast_le.mpr this
        omega
      · have hcast : ((si : ℤ) + i) * cfg.bps = (((si + i) * cfg.bps : ℕ) : ℤ) := by
          push_cast
          ring
        rw [hcast]
        omega

theorem codegenLoopF_isSome {F : Type} [LinearOrderedField F] (ops : MathOps F)
    (cfg : CodegenConfig F) (fft : FFTObj F) (buf : List ℕ) (delta : ℕ) :
    ∀ (fuel : ℕ) (c : Core F) (acc : List (ℕ × ℕ)),
      delta ≤ c.stepIndex * cfg.bps →
      buf.length + delta - c.stepIndex * cfg.bps ≤ fuel →
      (codegenLoopF ops cfg fft buf delta fuel c acc).isSome := by
  intro fuel
  induction fuel with
  | zero =>
    intro c acc hsi hfuel
    have hmul : c.stepIndex * cfg.bps ≤ (c.stepIndex + cfg.nfft) * cfg.bps :=
      Nat.mul_le_mul_right _ (by omega)
    rw [codegenLoopF, if_neg (by omega)]
    rfl
  | succ fuel ih =>
    intro c acc hsi hfuel
    rw [codegenLoopF]
    split
    · rename_i hg
      cases hd : buildFrameData cfg buf delta c.stepIndex with
      | none =>
        have := buildFrameData_isSome cfg buf delta c.stepIndex hsi hg
        rw [hd] at this
        cases this
      | some data =>
        simp only []
        have hsi' : (processFrameData ops cfg
            (boostedSpectrum ops (fftRun ops.sqrt fft data)) c).1.stepIndex =
            c.stepIndex + cfg.step := rfl
        apply ih
        · rw [hsi']
          have : c.stepIndex * cfg.bps ≤ (c.stepIndex + cfg.step) * cfg.bps :=
            Nat.mul_le_mul_right _ (by omega)
          omega
        · rw [hsi']
          have h1 : c.stepIndex * cfg.bps ≤ (c.stepIndex + cfg.nfft) * cfg.bps :=
            Nat.mul_le_mul_right _ (by omega)
          have h3 : (c.stepIndex + cfg.step) * cfg.bps =
              c.stepIndex * cfg.bps + cfg.step * cfg.bps := Nat.add_mul _ _ _
          have h4 : 0 < cfg.step * cfg.bps := Nat.mul_pos cfg.step_pos cfg.bps_pos
          omega
    · rfl

theorem codegenLoopF_drop {F : Type} [LinearOrderedField F] (ops : MathOps F)
    (cfg : CodegenConfig F) (fft : FFTObj F) (buf : List ℕ) (delta : ℕ)
    (hdel : delta ≤ buf.length) :
    ∀ (fuel : ℕ) (c : Core F) (acc : List (ℕ × ℕ)),
      delta ≤ c.stepIndex * cfg.bps →
      codegenLoopF ops cfg fft (buf.drop delta) delta fuel c acc =
        codegenLoopF ops cfg fft buf 0 fuel c acc := by
  intro fuel
  induction fuel with
  | zero =>
    intro c acc hsi
    rw [codegenLoopF, codegenLoopF, List.length_drop]
    have hlen : buf.length - delta + delta = buf.length + 0 := by omega
    rw [hlen]
  | succ fuel ih =>
    intro c acc hsi
    rw [codegenLoopF, codegenLoopF, List.length_drop]
    have hlen : buf.length - delta + delta = buf.length + 0 := by omega
    rw [hlen, buildFrameData_drop cfg buf delta c.stepIndex hsi hdel]
    split
    · cases hd : buildFrameData cfg buf 0 c.stepIndex with
      | none => rfl
      | some data =>
        simp only []
        apply ih
        have hsi' : (processFrameData ops cfg
            (boostedSpectrum ops (fftRun ops.sqrt fft data)) c).1.stepIndex =
            c.stepIndex + cfg.step := rfl
        rw [hsi']
        have : c.stepIndex * cfg.bps ≤ (c.stepIndex + cfg.step) * cfg.bps :=
          Nat.mul_le_mul_right _ (by omega)
        omega
    · rfl

theorem codegenLoopF_exit {F : Type} [LinearOrderedField F] (ops : MathOps F)
    (cfg : CodegenConfig F) (fft : FFTObj F) (buf : List ℕ) (delta : ℕ) :
    ∀ (fuel : ℕ) (c : Core F) (acc : List (ℕ × ℕ)) (r : Core F × List (ℕ × ℕ)),
      codegenLoopF ops cfg fft buf delta fuel c acc = some r →
      ¬ (r.1.stepIndex + cfg.nfft) * cfg.bps < buf.length + delta := by
  intro fuel
  induction fuel with
  | zero =>
    intro c acc r hr
    rw [codegenLoopF] at hr
    split at hr
    · cases hr
    · cases hr
      assumption
  | succ fuel ih =>
    intro c acc r hr
    rw [codegenLoopF] at hr
    split at hr
    · cases hd : buildFrameData cfg buf delta c.stepIndex with
      | none => rw [hd] at hr; cases hr
      | some data =>
        rw [hd] at hr
        exact ih _ _ r hr
    · cases hr
      assumption

theorem codegenLoopF_mono {F : Type} [LinearOrderedField F] (ops : MathOps F)
    (cfg : CodegenConfig F) (fft : FFTObj F) (buf : List ℕ) (delta : ℕ) :
    ∀ (fuel : ℕ) (c : Core F) (acc : List (ℕ × ℕ)) (r : Core F × List (ℕ × ℕ)),
      codegenLoopF ops cfg fft buf delta fuel c acc = some r →
      c.stepIndex ≤ r.1.stepIndex := by
  intro fuel
  induction fuel with
  | zero =>
    intro c acc r hr
    rw [codegenLoopF] at hr
    split at hr
    · cases hr
    · cases hr; exact Nat.le.refl
  | succ fuel ih =>
    intro c acc r hr
    rw [codegenLoopF] at hr
    split at hr
    · cases hd : buildFrameData cfg buf delta c.stepIndex with
      | none => rw [hd] at hr; cases hr
      | some data =>
        rw [hd] at hr
        have := ih _ _ r hr
        have hsi' : (processFrameData ops cfg
            (boostedSpectrum ops (fftRun ops.sqrt fft data)) c).1.stepIndex =
            c.stepIndex + cfg.step := rfl
        omega
    · cases hr; exact Nat.le.refl

theorem codegenLoopF_acc {F : Type} [LinearOrderedField F] (ops : MathOps F)
    (cfg : CodegenConfig F) (fft : FFTObj F) (buf : List ℕ) (delta : ℕ) :
    ∀ (fuel : ℕ) (c : Core F) (acc : List (ℕ × ℕ)),
      codegenLoopF ops cfg fft buf delta fuel c acc =
        (codegenLoopF ops cfg fft buf delta fuel c []).map
          (fun r => (r.1, acc ++ r.2)) := by
  intro fuel
  induction fuel with
  | zero =>
    intro c acc
    rw [codegenLoopF, codegenLoopF]
    split <;> simp
  | succ fuel ih =>
    intro c acc
    rw [codegenLoopF, codegenLoopF]
    split
    · cases hd : buildFrameData cfg buf delta c.stepIndex with
      | none => rfl
      | some data =>
        simp only []
        rw [ih _ (acc ++ _), ih _ (List.nil ++ _)]
        cases codegenLoopF ops cfg fft buf delta fuel
            (processFrameData ops cfg
              (boostedSpectrum ops (fftRun ops.sqrt fft data)) c).1 [] with
        | none => rfl
        | some q => simp
    · simp

theorem buildFrameData_append {F : Type} [LinearOrderedField F]
    (cfg : CodegenConfig F) (buf ch : List ℕ) (si : ℕ) (data : ℕ → F)
    (h : buildFrameData cfg buf 0 si = some data) :
    buildFrameData cfg (buf ++ ch) 0 si = some data := by
  rw [buildFrameData] at h
  split at h
  · rename_i hall
    cases h
    rw [buildFrameData, if_pos]
    · congr 1
      funext i
      by_cases hi : i < cfg.nfft
      · rw [if_pos hi, if_pos hi]
        obtain ⟨v, hv⟩ := Option.isSome_iff_exists.mp (hall i hi)
        rw [frameSample] at hv
        rw [frameSample, frameSample, readInt16LE_append buf ch _ v hv, hv]
      · rw [if_neg hi, if_neg hi]
    · intro i hi
      obtain ⟨v, hv⟩ := Option.isSome_iff_exists.mp (hall i hi)
      rw [frameSample] at hv ⊢
      rw [readInt16LE_append buf ch _ v hv]
      rfl
  · cases h

theorem codegenLoopF_extend {F : Type} [LinearOrderedField F] (ops : MathOps F)
    (cfg : CodegenConfig F) (fft : FFTObj F) (buf ch : List ℕ) :
    ∀ (fuel : ℕ) (c : Core F) (acc : List (ℕ × ℕ)) (r : Core F × List (ℕ × ℕ)),
      codegenLoopF ops cfg fft buf 0 fuel c acc = some r →
      codegenLoop ops cfg fft (buf ++ ch) 0 c acc =
        codegenLoop ops cfg fft (buf ++ ch) 0 r.1 r.2 := by
  intro fuel
  induction fuel with
  | zero =>
    intro c acc r hr
    rw [codegenLoopF] at hr
    split at hr
    · cases hr
    · cases hr
      rfl
  | succ fuel ih =>
    intro c acc r hr
    rw [codegenLoopF] at hr
    split at hr
    · rename_i hg
      cases hd : buildFrameData cfg buf 0 c.stepIndex with
      | none => rw [hd] at hr; cases hr
      | some data =>
        rw [hd] at hr
        have hstep := ih _ _ r hr
        rw [codegenLoop_eq, if_pos (by
          simp only [List.length_append]
          omega),
          buildFrameData_append cfg buf ch c.stepIndex data hd]
        exact hstep
    · cases hr
      rfl

theorem codegenWriteRef_none {F : Type} [LinearOrderedField F] (ops : MathOps F)
    (cfg : CodegenConfig F) (fft : FFTObj F) (st : CState F) (chunk : List ℕ)
    (h : codegenLoop ops cfg fft (st.buffer ++ chunk) st.bufferDelta st.core [] =
      none) : codegenWriteRef ops cfg fft st chunk = none := by
  unfold codegenWriteRef
  rw [h]

theorem codegenWriteRef_some {F : Type} [LinearOrderedField F] (ops : MathOps F)
    (cfg : CodegenConfig F) (fft : FFTObj F) (st : CState F) (chunk : List ℕ)
    (r : Core F × List (ℕ × ℕ))
    (h : codegenLoop ops cfg fft (st.buffer ++ chunk) st.bufferDelta st.core [] =
      some r) :
    codegenWriteRef ops cfg fft st chunk =
      some (⟨st.buffer ++ chunk, st.bufferDelta, r.1⟩, r.2) := by
  unfold codegenWriteRef
  rw [h]

/-- The simulation relation between a compacted stream state and the
reference (no-compaction) state carrying the same logical byte stream:
equal cores, the compacted buffer is the reference buffer with
`bufferDelta` leading bytes dropped, and no pending frame reaches below
the dropped prefix. -/
def SimR {F : Type} [LinearOrderedField F] (cfg : CodegenConfig F)
    (stC stR : CState F) : Prop :=
  stR.bufferDelta = 0 ∧
  stC.core = stR.core ∧
  stC.bufferDelta ≤ stR.buffer.length ∧
  stC.buffer = stR.buffer.drop stC.bufferDelta ∧
  stC.bufferDelta ≤ stC.core.stepIndex * cfg.bps

theorem codegenWrite_sim {F : Type} [LinearOrderedField F] (ops : MathOps F)
    (cfg : CodegenConfig F) (fft : FFTObj F) (hsafe : cfg.nfft * cfg.bps ≤ 20000)
    (stC stR : CState F) (chunk : List ℕ) (hsim : SimR cfg stC stR) :
    (codegenWrite ops cfg fft stC chunk = none ∧
      codegenWriteRef ops cfg fft stR chunk = none) ∨
    ∃ (stC' stR' : CState F) (out : List (ℕ × ℕ)),
      codegenWrite ops cfg fft stC chunk = some (stC', out) ∧
      codegenWriteRef ops cfg fft stR chunk = some (stR', out) ∧
      SimR cfg stC' stR' := by
  obtain ⟨hR0, hcore, hlen, hbuf, hsi⟩ := hsim
  have hdropappend : stC.buffer ++ chunk =
      (stR.buffer ++ chunk).drop stC.bufferDelta := by
    rw [hbuf, List.drop_append_of_le_length hlen]
  have hlen' : stC.bufferDelta ≤ (stR.buffer ++ chunk).length := by
    rw [List.length_append]
    omega
  have hloopeq : codegenLoop ops cfg fft (stC.buffer ++ chunk) stC.bufferDelta
      stC.core [] =
      codegenLoop ops cfg fft (stR.buffer ++ chunk) 0 stC.core [] := by
    rw [codegenLoop, codegenLoop]
    have hfuel : (stC.buffer ++ chunk).length + stC.bufferDelta =
        (stR.buffer ++ chunk).length + 0 := by
      rw [hdropappend, List.length_drop]
      omega
    rw [hfuel, hdropappend]
    exact codegenLoopF_drop ops cfg fft (stR.buffer ++ chunk) stC.bufferDelta
      hlen' _ stC.core [] hsi
  have hRloop : codegenLoop ops cfg fft (stR.buffer ++ chunk) stR.bufferDelta
      stR.core [] = codegenLoop ops cfg fft (stR.buffer ++ chunk) 0 stC.core [] := by
    rw [hR0, hcore]
  cases hl : codegenLoop ops cfg fft (stR.buffer ++ chunk) 0 stC.core [] with
  | none =>
    left
    exact ⟨codegenWrite_none ops cfg fft stC chunk (hloopeq.trans hl),
      codegenWriteRef_none ops cfg fft stR chunk (hRloop.trans hl)⟩
  | some r =>
    right
    have hmono : stC.core.stepIndex ≤ r.1.stepIndex := by
      refine codegenLoopF_mono ops cfg fft (stR.buffer ++ chunk) 0
        ((stR.buffer ++ chunk).length + 0) stC.core [] r ?_
      rw [← codegenLoop]
      exact hl
    have hsimono : stC.bufferDelta ≤ r.1.stepIndex * cfg.bps :=
      hsi.trans (Nat.mul_le_mul_right _ hmono)
    refine ⟨_, _, r.2,
      codegenWrite_some ops cfg fft stC chunk r (hloopeq.trans hl),
      codegenWriteRef_some ops cfg fft stR chunk r (hRloop.trans hl),
      ?_, ?_, ?_, ?_, ?_⟩
    · exact hR0
    · rfl
    · show (compactBuffer (stC.buffer ++ chunk) stC.bufferDelta).2 ≤
        (stR.buffer ++ chunk).length
      by_cases hbig : 1000000 < (stC.buffer ++ chunk).length
      · simp only [compactBuffer, if_pos hbig]
        have h20 : (stC.buffer ++ chunk).length + stC.bufferDelta =
            (stR.buffer ++ chunk).length := by
          rw [hdropappend, List.length_drop]
          omega
        omega
      · simp only [compactBuffer, if_neg hbig]
        exact hlen'
    · show (compactBuffer (stC.buffer ++ chunk) stC.bufferDelta).1 =
        (stR.buffer ++ chunk).drop
          (compactBuffer (stC.buffer ++ chunk) stC.bufferDelta).2
      by_cases hbig : 1000000 < (stC.buffer ++ chunk).length
      · simp only [compactBuffer, if_pos hbig]
        rw [hdropappend, List.drop_drop]
      · simp only [compactBuffer, if_neg hbig]
        exact hdropappend
    · show (compactBuffer (stC.buffer ++ chunk) stC.bufferDelta).2 ≤
        r.1.stepIndex * cfg.bps
      by_cases hbig : 1000000 < (stC.buffer ++ chunk).length
      · simp only [compactBuffer, if_pos hbig]
        have hexit : ¬ (r.1.stepIndex + cfg.nfft) * cfg.bps <
            (stC.buffer ++ chunk).length + stC.bufferDelta := by
          refine codegenLoopF_exit ops cfg fft (stC.buffer ++ chunk)
            stC.bufferDelta ((stC.buffer ++ chunk).length + stC.bufferDelta)
            stC.core [] r ?_
          rw [← codegenLoop]
          exact hloopeq.trans hl
        have hsum : (r.1.stepIndex + cfg.nfft) * cfg.bps =
            r.1.stepIndex * cfg.bps + cfg.nfft * cfg.bps := Nat.add_mul _ _ _
        omega
      · simp only [compactBuffer, if_neg hbig]
        exact hsimono

/-! ### Run-level simulation and chunking invariance -/

theorem codegenRun_sim {F : Type} [LinearOrderedField F] (ops : MathOps F)
    (cfg : CodegenConfig F) (fft : FFTObj F)
    (hsafe : cfg.nfft * cfg.bps ≤ 20000) :
    ∀ (chunks : List (List ℕ)) (stC stR : CState F), SimR cfg stC stR →
      (codegenRun ops cfg fft stC chunks).2 =
        (codegenRunRef ops cfg fft stR chunks).2 := by
  intro chunks
  induction chunks with
  | nil => intro stC stR _; rfl
  | cons ch rest ih =>
    intro stC stR hsim
    rcases codegenWrite_sim ops cfg fft hsafe stC stR ch hsim with
      ⟨hC, hR⟩ | ⟨stC', stR', out, hC, hR, hsim'⟩
    · simp only [codegenRun, codegenRunRef, hC, hR]
    · simp only [codegenRun, codegenRunRef, hC, hR]
      rw [ih stC' stR' hsim']

theorem codegenLoop_nil {F : Type} [LinearOrderedField F] (ops : MathOps F)
    (cfg : CodegenConfig F) (fft : FFTObj F) (c : Core F) :
    codegenLoop ops cfg fft [] 0 c [] = some (c, []) := by
  show codegenLoopF ops cfg fft [] 0 0 c [] = some (c, [])
  rw [codegenLoopF, if_neg (by simp)]

theorem codegenRunRef_out {F : Type} [LinearOrderedField F] (ops : MathOps F)
    (cfg : CodegenConfig F) (fft : FFTObj F) :
    ∀ (chunks : List (List ℕ)) (buf : List ℕ) (c0 c : Core F)
      (out : List (ℕ × ℕ)),
      codegenLoop ops cfg fft buf 0 c0 [] = some (c, out) →
      ∀ (rT : Core F × List (ℕ × ℕ)),
        codegenLoop ops cfg fft (buf ++ chunks.flatten) 0 c0 [] = some rT →
        out ++ (codegenRunRef ops cfg fft ⟨buf, 0, c⟩ chunks).2.flatten =
          rT.2 := by
  intro chunks
  induction chunks with
  | nil =>
    intro buf c0 c out hstep rT hT
    rw [List.flatten_nil, List.append_nil, hstep] at hT
    cases hT
    simp [codegenRunRef]
  | cons ch rest ih =>
    intro buf c0 c out hstep rT hT
    have htot : (codegenLoop ops cfg fft (buf ++ ch) 0 c []).isSome := by
      rw [codegenLoop]
      exact codegenLoopF_isSome ops cfg fft (buf ++ ch) 0 _ c []
        (Nat.zero_le _) (Nat.sub_le _ _)
    obtain ⟨s, hs⟩ := Option.isSome_iff_exists.mp htot
    rw [codegenLoop] at hstep
    have hext := codegenLoopF_extend ops cfg fft buf ch (buf.length + 0) c0 []
      (c, out) hstep
    have hacc : codegenLoop ops cfg fft (buf ++ ch) 0 c out =
        (codegenLoop ops cfg fft (buf ++ ch) 0 c []).map
          (fun r => (r.1, out ++ r.2)) := by
      rw [codegenLoop, codegenLoop]
      exact codegenLoopF_acc ops cfg fft (buf ++ ch) 0 _ c out
    have hfull : codegenLoop ops cfg fft (buf ++ ch) 0 c0 [] =
        some (s.1, out ++ s.2) := by
      rw [hext, hacc, hs]
      rfl
    have hw : codegenWriteRef ops cfg fft ⟨buf, 0, c⟩ ch =
        some (⟨buf ++ ch, 0, s.1⟩, s.2) :=
      codegenWriteRef_some ops cfg fft ⟨buf, 0, c⟩ ch s hs
    have hT' : codegenLoop ops cfg fft ((buf ++ ch) ++ rest.flatten) 0 c0 [] =
        some rT := by
      rw [List.append_assoc]
      rw [List.flatten_cons] at hT
      exact hT
    have hrec := ih (buf ++ ch) c0 s.1 (out ++ s.2) hfull rT hT'
    simp only [codegenRunRef, hw]
    rw [List.flatten_cons, ← List.append_assoc]
    exact hrec

/-- C1: for a fixed configuration, the concatenation of all emitted
`(tcodes, hcodes)` batches depends only on the concatenated input bytes,
not on the chunk boundaries.  Stated for every pair of chunkings of the
same byte stream from the freshly constructed state, under the spec's own
safety bound `nfft * bps ≤ 20000` (the "needed window" of a pending frame
never exceeds the 20,000 bytes kept by compaction). -/
theorem claim_C1 {F : Type} [LinearOrderedField F] (ops : MathOps F)
    (cfg : CodegenConfig F) (fft : FFTObj F)
    (hsafe : cfg.nfft * cfg.bps ≤ 20000)
    (chunks1 chunks2 : List (List ℕ))
    (hflat : chunks1.flatten = chunks2.flatten) :
    (codegenRun ops cfg fft (codegenInit cfg) chunks1).2.flatten =
      (codegenRun ops cfg fft (codegenInit cfg) chunks2).2.flatten := by
  have hsimI : SimR cfg (codegenInit cfg) (codegenInit cfg) :=
    ⟨rfl, rfl, Nat.zero_le _, rfl, Nat.zero_le _⟩
  have h1 := codegenRun_sim ops cfg fft hsafe chunks1 _ _ hsimI
  have h2 := codegenRun_sim ops cfg fft hsafe chunks2 _ _ hsimI
  rw [h1, h2]
  have htot : (codegenLoop ops cfg fft chunks1.flatten 0 (initCore cfg)
      []).isSome := by
    rw [codegenLoop]
    exact codegenLoopF_isSome ops cfg fft chunks1.flatten 0 _ _ []
      (Nat.zero_le _) (Nat.sub_le _ _)
  obtain ⟨rT, hrT⟩ := Option.isSome_iff_exists.mp htot
  have hstep : codegenLoop ops cfg fft [] 0 (initCore cfg) [] =
      some (initCore cfg, []) := codegenLoop_nil ops cfg fft _
  have e1 : [] ++ (codegenRunRef ops cfg fft (codegenInit cfg)
      chunks1).2.flatten = rT.2 :=
    codegenRunRef_out ops cfg fft chunks1 [] (initCore cfg) (initCore cfg) []
      hstep rT hrT
  have e2 : [] ++ (codegenRunRef ops cfg fft (codegenInit cfg)
      chunks2).2.flatten = rT.2 :=
    codegenRunRef_out ops cfg fft chunks2 [] (initCore cfg) (initCore cfg) []
      hstep rT (by rw [List.nil_append, ← hflat]; exact hrT)
  rw [List.nil_append] at e1 e2
  rw [e1, e2]

theorem claim_C1_witness :
    cfgSmallQ.nfft * cfgSmallQ.bps ≤ 20000 ∧
    (codegenRun opsQ cfgSmallQ fftSmallQ (codegenInit cfgSmallQ)
        [bytesSmallW]).2.flatten =
      (codegenRun opsQ cfgSmallQ fftSmallQ (codegenInit cfgSmallQ)
        [bytesSmallW.take 7, bytesSmallW.drop 7]).2.flatten :=
  ⟨by decide, claim_C1 opsQ cfgSmallQ fftSmallQ (by decide) _ _ (by decide)⟩

/-! ### Buffer compaction accounting (C7) -/

theorem codegenWrite_account {F : Type} [LinearOrderedField F] (ops : MathOps F)
    (cfg : CodegenConfig F) (fft : FFTObj F) (st st' : CState F)
    (chunk : List ℕ) (out : List (ℕ × ℕ))
    (h : codegenWrite ops cfg fft st chunk = some (st', out)) :
    st'.bufferDelta + st'.buffer.length =
      st.bufferDelta + st.buffer.length + chunk.length := by
  rcases hl : codegenLoop ops cfg fft (st.buffer ++ chunk) st.bufferDelta
      st.core [] with _ | r
  · rw [codegenWrite_none ops cfg fft st chunk hl] at h
    cases h
  · rw [codegenWrite_some ops cfg fft st chunk r hl] at h
    cases h
    by_cases hbig : 1000000 < (st.buffer ++ chunk).length
    · simp only [compactBuffer, if_pos hbig]
      rw [List.length_drop]
      rw [List.length_append] at hbig ⊢
      omega
    · simp only [compactBuffer, if_neg hbig]
      rw [List.length_append]
      omega

theorem codegenRun_account {F : Type} [LinearOrderedField F] (ops : MathOps F)
    (cfg : CodegenConfig F) (fft : FFTObj F) :
    ∀ (chunks : List (List ℕ)) (st st' : CState F),
      (codegenRun ops cfg fft st chunks).1 = some st' →
      st'.bufferDelta + st'.buffer.length =
        st.bufferDelta + st.buffer.length + chunks.flatten.length := by
  intro chunks
  induction chunks with
  | nil =>
    intro st st' h
    simp only [codegenRun] at h
    cases h
    simp
  | cons ch rest ih =>
    intro st st' h
    rcases hw : codegenWrite ops cfg fft st ch with _ | r
    · simp only [codegenRun, hw] at h
      cases h
    · simp only [codegenRun, hw] at h
      have h1 := ih r.1 st' h
      have h2 := codegenWrite_account ops cfg fft st r.1 ch r.2 (by rw [hw])
      rw [List.flatten_cons, List.length_append]
      omega

/-- C7: (i) whenever a write ends with more than 1,000,000 buffered bytes the
state keeps exactly the most recent 20,000 bytes and bumps `bufferDelta` by
exactly the dropped amount; (ii) across every write `bufferDelta +
buffer.length` grows by exactly the chunk length, so from the constructor it
always equals the total number of bytes ever written; (iii) under the spec's
safety bound `nfft * bps ≤ 20000`, a compacted run emits exactly the same
batches as the reference run in which compaction is never triggered. -/
theorem claim_C7 {F : Type} [LinearOrderedField F] (ops : MathOps F)
    (cfg : CodegenConfig F) (fft : FFTObj F)
    (hsafe : cfg.nfft * cfg.bps ≤ 20000) :
    (∀ (st st' : CState F) (chunk : List ℕ) (out : List (ℕ × ℕ)),
        codegenWrite ops cfg fft st chunk = some (st', out) →
        (1000000 < (st.buffer ++ chunk).length →
          st'.buffer =
            (st.buffer ++ chunk).drop ((st.buffer ++ chunk).length - 20000) ∧
          st'.buffer.length = 20000 ∧
          st'.bufferDelta =
            st.bufferDelta + ((st.buffer ++ chunk).length - 20000)) ∧
        st'.bufferDelta + st'.buffer.length =
          st.bufferDelta + st.buffer.length + chunk.length) ∧
    (∀ (chunks : List (List ℕ)) (st' : CState F),
        (codegenRun ops cfg fft (codegenInit cfg) chunks).1 = some st' →
        st'.bufferDelta + st'.buffer.length = chunks.flatten.length) ∧
    (∀ chunks : List (List ℕ),
        (codegenRun ops cfg fft (codegenInit cfg) chunks).2 =
          (codegenRunRef ops cfg fft (codegenInit cfg) chunks).2) := by
  refine ⟨?_, ?_, ?_⟩
  · intro st st' chunk out h
    refine ⟨?_, codegenWrite_account ops cfg fft st st' chunk out h⟩
    intro hbig
    rcases hl : codegenLoop ops cfg fft (st.buffer ++ chunk) st.bufferDelta
        st.core [] with _ | r
    · rw [codegenWrite_none ops cfg fft st chunk hl] at h
      cases h
    · rw [codegenWrite_some ops cfg fft st chunk r hl] at h
      cases h
      refine ⟨?_, ?_, ?_⟩
      · simp only [compactBuffer, if_pos hbig]
      · simp only [compactBuffer, if_pos hbig]
        rw [List.length_drop]
        omega
      · simp only [compactBuffer, if_pos hbig]
  · intro chunks st' h
    have := codegenRun_account ops cfg fft chunks (codegenInit cfg) st' h
    simpa [codegenInit, initCore] using this
  · intro chunks
    exact codegenRun_sim ops cfg fft hsafe chunks _ _
      ⟨rfl, rfl, Nat.zero_le _, rfl, Nat.zero_le _⟩

theorem claim_C7_witness :
    cfgSmallQ.nfft * cfgSmallQ.bps ≤ 20000 ∧
    (codegenRun opsQ cfgSmallQ fftSmallQ (codegenInit cfgSmallQ)
        [bytesSmallW]).2 =
      (codegenRunRef opsQ cfgSmallQ fftSmallQ (codegenInit cfgSmallQ)
        [bytesSmallW]).2 :=
  ⟨by decide,
    (claim_C7 opsQ cfgSmallQ fftSmallQ (by decide)).2.2 [bytesSmallW]⟩

/-! ### Claim C3: the forward pass computes the discrete Fourier transform -/

theorem reverseBitsAux_eq (b : ℕ) :
    ∀ x y, reverseBitsAux x y b = y * 2 ^ b + reverseBits x b := by
  induction b with
  | zero => intro x y; simp [reverseBitsAux, reverseBits]
  | succ b ih =>
    intro x y
    show reverseBitsAux (x / 2) (y * 2 + x % 2) b = _
    rw [ih]
    have h2 : reverseBits x (b + 1) = (x % 2) * 2 ^ b + reverseBits (x / 2) b := by
      show reverseBitsAux (x / 2) (0 * 2 + x % 2) b = _
      rw [ih]
      ring_nf
    rw [h2, pow_succ]
    ring

theorem reverseBits_succ (x b : ℕ) :
    reverseBits x (b + 1) = (x % 2) * 2 ^ b + reverseBits (x / 2) b := by
  show reverseBitsAux (x / 2) (0 * 2 + x % 2) b = _
  rw [reverseBitsAux_eq]
  ring_nf

theorem reverseBits_lt (b : ℕ) : ∀ x, reverseBits x b < 2 ^ b := by
  induction b with
  | zero => intro x; simp [reverseBits, reverseBitsAux]
  | succ b ih =>
    intro x
    rw [reverseBits_succ, pow_succ]
    have h1 : x % 2 < 2 := Nat.mod_lt _ (by omega)
    have h2 := ih (x / 2)
    nlinarith

theorem reverseBits_two_mul (x b : ℕ) :
    reverseBits (2 * x) (b + 1) = reverseBits x b := by
  rw [reverseBits_succ]
  simp [Nat.mul_div_cancel_left, Nat.mul_mod_right]

theorem reverseBits_two_mul_add_one (x b : ℕ) :
    reverseBits (2 * x + 1) (b + 1) = 2 ^ b + reverseBits x b := by
  rw [reverseBits_succ]
  have h1 : (2 * x + 1) % 2 = 1 := by omega
  have h2 : (2 * x + 1) / 2 = x := by omega
  rw [h1, h2]
  ring

theorem reverseBits_high (b : ℕ) : ∀ x, x < 2 ^ (b + 1) →
    reverseBits x (b + 1) = 2 * reverseBits (x % 2 ^ b) b + x / 2 ^ b := by
  induction b with
  | zero =>
    intro x hx
    rw [reverseBits_succ]
    simp only [pow_zero, Nat.mod_one, Nat.div_one]
    have : reverseBits 0 0 = 0 := rfl
    rw [this]
    have hx2 : x / 2 = 0 := by omega
    rw [hx2]
    show x % 2 * 1 + reverseBits 0 0 = 2 * 0 + x
    rw [this]
    omega
  | succ b ih =>
    intro x hx
    rw [reverseBits_succ]
    have hx2 : x / 2 < 2 ^ (b + 1) := by
      rw [Nat.div_lt_iff_lt_mul (by omega)]
      calc x < 2 ^ (b + 1 + 1) := hx
      _ = 2 ^ (b + 1) * 2 := by rw [pow_succ]
    rw [ih (x / 2) hx2]
    have hmodsucc : reverseBits (x % 2 ^ (b + 1)) (b + 1) =
        (x % 2) * 2 ^ b + reverseBits ((x / 2) % 2 ^ b) b := by
      rw [reverseBits_succ]
      have e1 : x % 2 ^ (b + 1) % 2 = x % 2 := by
        rw [Nat.mod_mod_of_dvd]
        exact ⟨2 ^ b, by rw [pow_succ]; ring⟩
      have e2 : x % 2 ^ (b + 1) / 2 = (x / 2) % 2 ^ b := by
        rw [pow_succ, mul_comm]
        exact Nat.mod_mul_right_div_self x 2 (2 ^ b)
      rw [e1, e2]
    rw [hmodsucc]
    have e3 : x / 2 / 2 ^ b = x / 2 ^ (b + 1) := by
      rw [Nat.div_div_eq_div_mul, pow_succ, mul_comm]
    rw [e3]
    ring

theorem reverseBits_reverseBits (b : ℕ) : ∀ x, x < 2 ^ b →
    reverseBits (reverseBits x b) b = x := by
  induction b with
  | zero => intro x hx; interval_cases x; rfl
  | succ b ih =>
    intro x hx
    have hxr : reverseBits x (b + 1) = (x % 2) * 2 ^ b + reverseBits (x / 2) b :=
      reverseBits_succ x b
    set y := (x % 2) * 2 ^ b + reverseBits (x / 2) b with hy
    rw [hxr]
    have hrlt := reverseBits_lt b (x / 2)
    have hx2 : x % 2 < 2 := Nat.mod_lt _ (by omega)
    have hylt : y < 2 ^ (b + 1) := by rw [hy, pow_succ]; nlinarith
    rw [reverseBits_high b y hylt]
    have e1 : y % 2 ^ b = reverseBits (x / 2) b := by
      rw [hy, mul_comm, Nat.mul_add_mod, Nat.mod_eq_of_lt hrlt]
    have e2 : y / 2 ^ b = x % 2 := by
      rw [hy, add_comm,
        Nat.add_mul_div_right _ _ (by positivity : (0:ℕ) < 2 ^ b),
        Nat.div_eq_of_lt hrlt]
      omega
    rw [e1, e2]
    have hx3 : x / 2 < 2 ^ b := by
      rw [Nat.div_lt_iff_lt_mul (by omega)]
      calc x < 2 ^ (b + 1) := hx
      _ = 2 ^ b * 2 := by rw [pow_succ]
    rw [ih (x / 2) hx3]
    omega

/-- The constructor's cosine table generator:
`cosTable[i] = Math.cos(2 * Math.PI * i / n)`. -/
noncomputable def mkCosR : ℕ → ℕ → ℝ := fun n k => Real.cos (2 * Real.pi * k / n)

/-- The constructor's sine table generator:
`sinTable[i] = Math.sin(2 * Math.PI * i / n)`. -/
noncomputable def mkSinR : ℕ → ℕ → ℝ := fun n k => Real.sin (2 * Real.pi * k / n)

/-- The complex value held at position `p` of the paired real/imaginary
arrays. -/
noncomputable def Zc (st : (ℕ → ℝ) × (ℕ → ℝ)) (p : ℕ) : ℂ :=
  (st.1 p : ℂ) + Complex.I * st.2 p

/-- The root of unity `exp(-2·π·i·m/n)` (the DFT kernel). -/
noncomputable def wexp (n m : ℕ) : ℂ :=
  Complex.exp (-(2 * Real.pi * Complex.I * m / n))

/-- The textbook discrete Fourier transform, the reference semantics the
spec assigns to `forward`: `X_k = Σ_t x_t · exp(-2πi·k·t/n)`. -/
noncomputable def dftSpec (n : ℕ) (x : ℕ → ℂ) (k : ℕ) : ℂ :=
  ∑ t ∈ Finset.range n, x t * wexp n (k * t)

theorem wexp_add (n a b : ℕ) : wexp n (a + b) = wexp n a * wexp n b := by
  rw [wexp, wexp, wexp, ← Complex.exp_add]
  congr 1
  push_cast
  ring

theorem wexp_zero (n : ℕ) : wexp n 0 = 1 := by
  simp [wexp]

theorem wexp_mul_period (L m : ℕ) : wexp (2 ^ L) (2 ^ L * m) = 1 := by
  have hLne : ((2 : ℂ) ^ L) ≠ 0 := pow_ne_zero _ two_ne_zero
  have harg : 2 * (Real.pi : ℂ) * Complex.I * ((2 ^ L * m : ℕ) : ℂ) /
      ((2 ^ L : ℕ) : ℂ) = (m : ℕ) * (2 * (Real.pi : ℂ) * Complex.I) := by
    push_cast
    rw [div_eq_iff hLne]
    ring
  rw [wexp, harg, Complex.exp_neg, Complex.exp_nat_mul_two_pi_mul_I]
  norm_num

theorem wexp_period (L a m : ℕ) :
    wexp (2 ^ L) (a + 2 ^ L * m) = wexp (2 ^ L) a := by
  rw [wexp_add, wexp_mul_period, mul_one]

theorem wexp_half (L : ℕ) (hL : 1 ≤ L) : wexp (2 ^ L) (2 ^ (L - 1)) = -1 := by
  obtain ⟨a, rfl⟩ : ∃ a, L = a + 1 := ⟨L - 1, by omega⟩
  rw [wexp, Nat.add_sub_cancel]
  have ha : ((2 : ℂ) ^ (a + 1)) ≠ 0 := pow_ne_zero _ two_ne_zero
  have harg : 2 * (Real.pi : ℂ) * Complex.I * ((2 ^ a : ℕ) : ℂ) /
      ((2 ^ (a + 1) : ℕ) : ℂ) = (Real.pi : ℂ) * Complex.I := by
    push_cast
    rw [div_eq_iff ha, pow_succ]
    ring
  rw [harg, Complex.exp_neg, Complex.exp_pi_mul_I]
  norm_num

theorem wexp_cos_sin (n k : ℕ) :
    ((mkCosR n k : ℝ) : ℂ) - Complex.I * (mkSinR n k : ℝ) = wexp n k := by
  rw [mkCosR, mkSinR, wexp]
  have harg : -(2 * (Real.pi : ℂ) * Complex.I * (k : ℂ) / (n : ℂ)) =
      ((-(2 * Real.pi * k / n) : ℝ) : ℂ) * Complex.I := by
    push_cast
    ring
  rw [harg, Complex.exp_mul_I, ← Complex.ofReal_cos, ← Complex.ofReal_sin]
  rw [Real.cos_neg, Real.sin_neg]
  push_cast
  ring

theorem Zc_butterfly_ne (cosT sinT : ℕ → ℝ) (k j l p : ℕ) (hpj : p ≠ j)
    (hpl : p ≠ l) (st : (ℕ → ℝ) × (ℕ → ℝ)) :
    Zc (butterfly cosT sinT k j l st) p = Zc st p := by
  simp [butterfly, fupd, Zc, hpj, hpl]

theorem Zc_butterfly_j (n k j l : ℕ) (hjl : j ≠ l) (st : (ℕ → ℝ) × (ℕ → ℝ)) :
    Zc (butterfly (mkCosR n) (mkSinR n) k j l st) j =
      Zc st j + wexp n k * Zc st l := by
  rw [← wexp_cos_sin n k]
  simp [butterfly, fupd, Zc, hjl, Ne.symm hjl]
  push_cast
  ring_nf
  simp only [Complex.I_sq]
  ring

theorem Zc_butterfly_l (n k j l : ℕ) (hjl : j ≠ l) (st : (ℕ → ℝ) × (ℕ → ℝ)) :
    Zc (butterfly (mkCosR n) (mkSinR n) k j l st) l =
      Zc st j - wexp n k * Zc st l := by
  rw [← wexp_cos_sin n k]
  simp [butterfly, fupd, Zc, hjl, Ne.symm hjl]
  push_cast
  ring_nf
  simp only [Complex.I_sq]
  ring

/-- Prefix of the inner butterfly loop: the first `m` of the `halfsize`
butterflies of the block at base index `i`. -/
def blockIter {F : Type} [LinearOrderedField F] (cosT sinT : ℕ → F)
    (h ts i m : ℕ) (st : (ℕ → F) × (ℕ → F)) : (ℕ → F) × (ℕ → F) :=
  (List.range m).foldl
    (fun s off => butterfly cosT sinT (off * ts) (i + off) (i + off + h) s) st

theorem butterflyBlock_eq_blockIter {F : Type} [LinearOrderedField F]
    (cosT sinT : ℕ → F) (h ts i : ℕ) (st : (ℕ → F) × (ℕ → F)) :
    butterflyBlock cosT sinT h ts i st = blockIter cosT sinT h ts i h st := rfl

theorem blockIter_succ {F : Type} [LinearOrderedField F] (cosT sinT : ℕ → F)
    (h ts i m : ℕ) (st : (ℕ → F) × (ℕ → F)) :
    blockIter cosT sinT h ts i (m + 1) st =
      butterfly cosT sinT (m * ts) (i + m) (i + m + h)
        (blockIter cosT sinT h ts i m st) := by
  rw [blockIter, blockIter, List.range_succ, List.foldl_append]
  rfl

theorem Zc_blockIter (n h ts i : ℕ) (hh : 0 < h) :
    ∀ m, m ≤ h → ∀ (st : (ℕ → ℝ) × (ℕ → ℝ)) (p : ℕ),
      Zc (blockIter (mkCosR n) (mkSinR n) h ts i m st) p =
        if i ≤ p ∧ p < i + m then
          Zc st p + wexp n ((p - i) * ts) * Zc st (p + h)
        else if i + h ≤ p ∧ p < i + h + m then
          Zc st (p - h) - wexp n ((p - (i + h)) * ts) * Zc st p
        else Zc st p := by
  intro m
  induction m with
  | zero =>
    intro _ st p
    rw [if_neg (by omega), if_neg (by omega)]
    rfl
  | succ m ih =>
    intro hm st p
    have hm' : m ≤ h := by omega
    rw [blockIter_succ]
    have hjl : i + m ≠ i + m + h := by omega
    by_cases hpj : p = i + m
    · rw [hpj, Zc_butterfly_j n (m * ts) (i + m) (i + m + h) hjl]
      rw [ih hm' st (i + m), ih hm' st (i + m + h)]
      rw [if_neg (by omega), if_neg (by omega), if_neg (by omega),
        if_neg (by omega)]
      rw [if_pos (by omega : i ≤ i + m ∧ i + m < i + (m + 1))]
      have e1 : i + m - i = m := by omega
      rw [e1]
    · by_cases hpl : p = i + m + h
      · rw [hpl, Zc_butterfly_l n (m * ts) (i + m) (i + m + h) hjl]
        rw [ih hm' st (i + m), ih hm' st (i + m + h)]
        rw [if_neg (by omega), if_neg (by omega), if_neg (by omega),
          if_neg (by omega)]
        rw [if_neg (by omega)]
        rw [if_pos (by omega : i + h ≤ i + m + h ∧ i + m + h < i + h + (m + 1))]
        have e1 : i + m + h - h = i + m := by omega
        have e2 : i + m + h - (i + h) = m := by omega
        rw [e1, e2]
      · rw [Zc_butterfly_ne (mkCosR n) (mkSinR n) (m * ts) (i + m) (i + m + h)
          p hpj hpl]
        rw [ih hm' st p]
        by_cases c1 : i ≤ p ∧ p < i + m
        · rw [if_pos c1, if_pos (by omega : i ≤ p ∧ p < i + (m + 1))]
        · rw [if_neg c1]
          by_cases c2 : i + h ≤ p ∧ p < i + h + m
          · rw [if_pos c2, if_neg (by omega),
              if_pos (by omega : i + h ≤ p ∧ p < i + h + (m + 1))]
          · rw [if_neg c2, if_neg (by omega), if_neg (by omega)]

/-- Prefix of the middle loop of a stage: the first `m` blocks. -/
def stageIter {F : Type} [LinearOrderedField F] (cosT sinT : ℕ → F)
    (n size m : ℕ) (st : (ℕ → F) × (ℕ → F)) : (ℕ → F) × (ℕ → F) :=
  (List.range m).foldl
    (fun s b => butterflyBlock cosT sinT (size / 2) (n / size) (b * size) s) st

theorem butterflyStage_eq_stageIter {F : Type} [LinearOrderedField F]
    (cosT sinT : ℕ → F) (n size : ℕ) (st : (ℕ → F) × (ℕ → F)) :
    butterflyStage cosT sinT n size st =
      stageIter cosT sinT n size (n / size) st := rfl

theorem stageIter_succ {F : Type} [LinearOrderedField F] (cosT sinT : ℕ → F)
    (n size m : ℕ) (st : (ℕ → F) × (ℕ → F)) :
    stageIter cosT sinT n size (m + 1) st =
      butterflyBlock cosT sinT (size / 2) (n / size) (m * size)
        (stageIter cosT sinT n size m st) := by
  rw [stageIter, stageIter, List.range_succ, List.foldl_append]
  rfl

theorem Zc_stageIter (n h ts size : ℕ) (hh : 0 < h) (hsize : size = 2 * h)
    (hts : ts = n / size) :
    ∀ m (st : (ℕ → ℝ) × (ℕ → ℝ)) (p : ℕ),
      Zc (stageIter (mkCosR n) (mkSinR n) n size m st) p =
        if p < m * size then
          (if p % size < h then
            Zc st p + wexp n ((p % size) * ts) * Zc st (p + h)
          else Zc st (p - h) - wexp n ((p % size - h) * ts) * Zc st p)
        else Zc st p := by
  intro m
  induction m with
  | zero =>
    intro st p
    rw [if_neg (by omega)]
    rfl
  | succ m ih =>
    intro st p
    rw [stageIter_succ]
    have hh2 : size / 2 = h := by omega
    have hts2 : n / size = ts := hts.symm
    rw [hh2, hts2, butterflyBlock_eq_blockIter]
    rw [Zc_blockIter n h ts (m * size) hh h (le_refl h)]
    rw [Nat.succ_mul]
    by_cases c1 : m * size ≤ p ∧ p < m * size + h
    · rw [if_pos c1]
      rw [ih st p, ih st (p + h)]
      rw [if_neg (by omega), if_neg (by omega)]
      have hps : p % size = p - m * size := by
        conv_lhs => rw [show p = (p - m * size) + m * size from by omega]
        rw [Nat.add_mul_mod_self_right]
        exact Nat.mod_eq_of_lt (by omega)
      rw [if_pos (by omega : p < m * size + size)]
      rw [if_pos (by rw [hps]; omega : p % size < h)]
      rw [hps]
    · by_cases c2 : m * size + h ≤ p ∧ p < m * size + h + h
      · rw [if_neg c1, if_pos c2]
        rw [ih st (p - h), ih st p]
        rw [if_neg (by omega), if_neg (by omega)]
        have hps : p % size = p - m * size := by
          conv_lhs => rw [show p = (p - m * size) + m * size from by omega]
          rw [Nat.add_mul_mod_self_right]
          exact Nat.mod_eq_of_lt (by omega)
        rw [if_pos (by omega : p < m * size + size)]
        rw [if_neg (by rw [hps]; omega : ¬ p % size < h)]
        rw [hps, Nat.sub_sub]
      · rw [if_neg c1, if_neg c2]
        rw [ih st p]
        by_cases c3 : p < m * size
        · rw [if_pos c3, if_pos (by omega : p < m * size + size)]
        · rw [if_neg c3, if_neg (by omega : ¬ p < m * size + size)]

theorem Zc_bitrevSwap (L i : ℕ) (st : (ℕ → ℝ) × (ℕ → ℝ)) (p : ℕ) :
    Zc (bitrevSwap L st i) p =
      if i < reverseBits i L then
        (if p = i then Zc st (reverseBits i L)
         else if p = reverseBits i L then Zc st i
         else Zc st p)
      else Zc st p := by
  by_cases hij : i < reverseBits i L
  · rw [if_pos hij]
    have hne : i ≠ reverseBits i L := by omega
    by_cases hpi : p = i
    · rw [if_pos hpi, hpi]
      simp [bitrevSwap, if_pos hij, Zc, fupd, hne, Ne.symm hne]
    · rw [if_neg hpi]
      by_cases hpj : p = reverseBits i L
      · rw [if_pos hpj, hpj]
        simp [bitrevSwap, if_pos hij, Zc, fupd]
      · rw [if_neg hpj]
        simp [bitrevSwap, if_pos hij, Zc, fupd, hpi, hpj]
  · rw [if_neg hij]
    simp [bitrevSwap, if_neg hij]

/-- Prefix of the bit-reversal permutation loop. -/
def brIter {F : Type} (L m : ℕ) (st : (ℕ → F) × (ℕ → F)) :
    (ℕ → F) × (ℕ → F) :=
  (List.range m).foldl (bitrevSwap L) st

theorem bitrevPass_eq_brIter {F : Type} (n L : ℕ)
    (st : (ℕ → F) × (ℕ → F)) : bitrevPass n L st = brIter L n st := rfl

theorem brIter_succ {F : Type} (L m : ℕ) (st : (ℕ → F) × (ℕ → F)) :
    brIter L (m + 1) st = bitrevSwap L (brIter L m st) m := by
  rw [brIter, brIter, List.range_succ, List.foldl_append]
  rfl

theorem Zc_brIter (L : ℕ) :
    ∀ m, m ≤ 2 ^ L → ∀ (st : (ℕ → ℝ) × (ℕ → ℝ)) (p : ℕ), p < 2 ^ L →
      Zc (brIter L m st) p =
        if p < m ∨ reverseBits p L < m then Zc st (reverseBits p L)
        else Zc st p := by
  intro m
  induction m with
  | zero =>
    intro _ st p _
    rw [if_neg (by omega)]
    rfl
  | succ m ih =>
    intro hm st p hp
    have hm' : m ≤ 2 ^ L := by omega
    have hmlt : m < 2 ^ L := by omega
    have hrm : reverseBits m L < 2 ^ L := reverseBits_lt L m
    have hrp : reverseBits p L < 2 ^ L := reverseBits_lt L p
    have hinvm : reverseBits (reverseBits m L) L = m :=
      reverseBits_reverseBits L m hmlt
    have hinvp : reverseBits (reverseBits p L) L = p :=
      reverseBits_reverseBits L p hp
    rw [brIter_succ, Zc_bitrevSwap]
    by_cases him : m < reverseBits m L
    · rw [if_pos him]
      by_cases hpm : p = m
      · rw [if_pos hpm, ih hm' st (reverseBits m L) hrm, hinvm,
          if_neg (by omega), hpm, if_pos (by omega)]
      · rw [if_neg hpm]
        by_cases hpj : p = reverseBits m L
        · rw [if_pos hpj, ih hm' st m hmlt, if_neg (by omega), hpj, hinvm,
            if_pos (by omega)]
        · rw [if_neg hpj, ih hm' st p hp]
          have hrpne : reverseBits p L ≠ m := by
            intro h
            apply hpj
            rw [← h, hinvp]
          by_cases c : p < m ∨ reverseBits p L < m
          · rw [if_pos c, if_pos (by omega)]
          · rw [if_neg c, if_neg (by omega)]
    · rw [if_neg him, ih hm' st p hp]
      by_cases hpm : p = m
      · by_cases hrmm : reverseBits m L = m
        · rw [hpm, if_neg (by omega), if_pos (by omega), hrmm]
        · rw [hpm, if_pos (by omega), if_pos (by omega)]
      · have himp : reverseBits p L = m → p = reverseBits m L := by
          intro h
          rw [← h, hinvp]
        by_cases c : p < m ∨ reverseBits p L < m
        · rw [if_pos c, if_pos (by omega)]
        · rw [if_neg c]
          rw [if_neg (by
            intro hcon
            rcases hcon with h1 | h2
            · exact hpm (by omega)
            · have h3 : reverseBits p L = m := by omega
              have h4 := himp h3
              omega)]

/-- The state of the decimation-in-time FFT after the stages of sizes
`2, 4, …, 2^s`: position `p` holds the `2^s`-point DFT, evaluated at
`p mod 2^s`, of the stride-`2^(L-s)` subsequence selected by the reversed
block index. -/
noncomputable def stageVal (L s : ℕ) (x : ℕ → ℂ) (p : ℕ) : ℂ :=
  ∑ t ∈ Finset.range (2 ^ s),
    x (t * 2 ^ (L - s) + reverseBits (p / 2 ^ s) (L - s)) *
      wexp (2 ^ L) (2 ^ (L - s) * (p % 2 ^ s * t))

theorem sum_range_even_odd (f : ℕ → ℂ) (n : ℕ) :
    ∑ t ∈ Finset.range (2 * n), f t =
      (∑ u ∈ Finset.range n, f (2 * u)) +
        ∑ u ∈ Finset.range n, f (2 * u + 1) := by
  induction n with
  | zero => simp
  | succ n ih =>
    have h2 : 2 * (n + 1) = (2 * n + 1) + 1 := by ring
    rw [h2, Finset.sum_range_succ, Finset.sum_range_succ, ih,
      Finset.sum_range_succ, Finset.sum_range_succ]
    ring

theorem stageVal_zero (L : ℕ) (x : ℕ → ℂ) (p : ℕ) :
    stageVal L 0 x p = x (reverseBits p L) := by
  rw [stageVal]
  simp [wexp_zero]

theorem stageVal_last (L : ℕ) (x : ℕ → ℂ) (p : ℕ) (hp : p < 2 ^ L) :
    stageVal L L x p = dftSpec (2 ^ L) x p := by
  rw [stageVal, dftSpec]
  have h0 : L - L = 0 := by omega
  rw [h0, Nat.div_eq_of_lt hp, Nat.mod_eq_of_lt hp]
  apply Finset.sum_congr rfl
  intro t ht
  have hrev : reverseBits 0 0 = 0 := rfl
  rw [hrev]
  norm_num

theorem stageVal_succ (L s : ℕ) (hs : s < L) (x : ℕ → ℂ) (p : ℕ) :
    stageVal L (s + 1) x p =
      if p % 2 ^ (s + 1) < 2 ^ s then
        stageVal L s x p +
          wexp (2 ^ L) (p % 2 ^ (s + 1) * 2 ^ (L - s - 1)) *
            stageVal L s x (p + 2 ^ s)
      else
        stageVal L s x (p - 2 ^ s) -
          wexp (2 ^ L) ((p % 2 ^ (s + 1) - 2 ^ s) * 2 ^ (L - s - 1)) *
            stageVal L s x p := by
  obtain ⟨d, hd⟩ : ∃ d, L - s - 1 = d := ⟨_, rfl⟩
  have hds : L - s = d + 1 := by omega
  have hLs1 : L - (s + 1) = d := by omega
  have hpow1 : (0:ℕ) < 2 ^ (s + 1) := by positivity
  have hpows : (0:ℕ) < 2 ^ s := by positivity
  obtain ⟨b, r, hrlt, rfl⟩ : ∃ b r, r < 2 ^ (s + 1) ∧ p = 2 ^ (s + 1) * b + r :=
    ⟨p / 2 ^ (s + 1), p % 2 ^ (s + 1), Nat.mod_lt _ hpow1,
      (Nat.div_add_mod p (2 ^ (s + 1))).symm⟩
  have hmod : (2 ^ (s + 1) * b + r) % 2 ^ (s + 1) = r := by
    rw [Nat.mul_add_mod]
    exact Nat.mod_eq_of_lt hrlt
  have hdiv : (2 ^ (s + 1) * b + r) / 2 ^ (s + 1) = b := by
    rw [Nat.mul_add_div hpow1, Nat.div_eq_of_lt hrlt, add_zero]
  rw [stageVal, hLs1, hmod, hdiv, hd]
  conv_lhs => rw [show (2:ℕ) ^ (s + 1) = 2 * 2 ^ s from by ring]
  rw [sum_range_even_odd
    (fun t => x (t * 2 ^ d + reverseBits b d) * wexp (2 ^ L) (2 ^ d * (r * t)))
    (2 ^ s)]
  by_cases hlt : r < 2 ^ s
  · rw [if_pos hlt]
    have hdiv2 : (2 ^ (s + 1) * b + r) / 2 ^ s = 2 * b := by
      rw [show (2:ℕ) ^ (s + 1) * b + r = r + 2 ^ s * (2 * b) from by ring]
      rw [Nat.add_mul_div_left _ _ hpows, Nat.div_eq_of_lt hlt, zero_add]
    have hmod2 : (2 ^ (s + 1) * b + r) % 2 ^ s = r := by
      rw [show (2:ℕ) ^ (s + 1) * b + r = r + 2 ^ s * (2 * b) from by ring]
      rw [Nat.add_mul_mod_self_left]
      exact Nat.mod_eq_of_lt hlt
    have hdiv3 : (2 ^ (s + 1) * b + r + 2 ^ s) / 2 ^ s = 2 * b + 1 := by
      rw [show (2:ℕ) ^ (s + 1) * b + r + 2 ^ s = r + 2 ^ s * (2 * b + 1) from by
        ring]
      rw [Nat.add_mul_div_left _ _ hpows, Nat.div_eq_of_lt hlt, zero_add]
    have hmod3 : (2 ^ (s + 1) * b + r + 2 ^ s) % 2 ^ s = r := by
      rw [show (2:ℕ) ^ (s + 1) * b + r + 2 ^ s = r + 2 ^ s * (2 * b + 1) from by
        ring]
      rw [Nat.add_mul_mod_self_left]
      exact Nat.mod_eq_of_lt hlt
    have heven : (∑ u ∈ Finset.range (2 ^ s),
        x (2 * u * 2 ^ d + reverseBits b d) *
          wexp (2 ^ L) (2 ^ d * (r * (2 * u)))) =
        stageVal L s x (2 ^ (s + 1) * b + r) := by
      rw [stageVal, hds, hdiv2, hmod2, reverseBits_two_mul]
      apply Finset.sum_congr rfl
      intro u hu
      rw [show 2 * u * 2 ^ d = u * 2 ^ (d + 1) from by ring]
      rw [show 2 ^ d * (r * (2 * u)) = 2 ^ (d + 1) * (r * u) from by ring]
    have hodd : (∑ u ∈ Finset.range (2 ^ s),
        x ((2 * u + 1) * 2 ^ d + reverseBits b d) *
          wexp (2 ^ L) (2 ^ d * (r * (2 * u + 1)))) =
        wexp (2 ^ L) (r * 2 ^ d) *
          stageVal L s x (2 ^ (s + 1) * b + r + 2 ^ s) := by
      rw [stageVal, hds, hdiv3, hmod3, reverseBits_two_mul_add_one,
        Finset.mul_sum]
      apply Finset.sum_congr rfl
      intro u hu
      rw [show (2 * u + 1) * 2 ^ d + reverseBits b d =
          u * 2 ^ (d + 1) + (2 ^ d + reverseBits b d) from by ring]
      rw [show 2 ^ d * (r * (2 * u + 1)) =
          2 ^ (d + 1) * (r * u) + r * 2 ^ d from by ring]
      rw [wexp_add]
      ring
    rw [heven, hodd]
  · rw [if_neg hlt]
    obtain ⟨r2, rfl⟩ : ∃ r2, r = r2 + 2 ^ s := ⟨r - 2 ^ s, by omega⟩
    have hr2lt : r2 < 2 ^ s := by
      have : (2:ℕ) ^ (s + 1) = 2 ^ s * 2 := by ring
      omega
    have hsub : 2 ^ (s + 1) * b + (r2 + 2 ^ s) - 2 ^ s =
        2 ^ (s + 1) * b + r2 := by omega
    have hsubr : r2 + 2 ^ s - 2 ^ s = r2 := by omega
    rw [hsub, hsubr]
    have hdiv2 : (2 ^ (s + 1) * b + r2) / 2 ^ s = 2 * b := by
      rw [show (2:ℕ) ^ (s + 1) * b + r2 = r2 + 2 ^ s * (2 * b) from by ring]
      rw [Nat.add_mul_div_left _ _ hpows, Nat.div_eq_of_lt hr2lt, zero_add]
    have hmod2 : (2 ^ (s + 1) * b + r2) % 2 ^ s = r2 := by
      rw [show (2:ℕ) ^ (s + 1) * b + r2 = r2 + 2 ^ s * (2 * b) from by ring]
      rw [Nat.add_mul_mod_self_left]
      exact Nat.mod_eq_of_lt hr2lt
    have hdiv3 : (2 ^ (s + 1) * b + (r2 + 2 ^ s)) / 2 ^ s = 2 * b + 1 := by
      rw [show (2:ℕ) ^ (s + 1) * b + (r2 + 2 ^ s) =
          r2 + 2 ^ s * (2 * b + 1) from by ring]
      rw [Nat.add_mul_div_left _ _ hpows, Nat.div_eq_of_lt hr2lt, zero_add]
    have hmod3 : (2 ^ (s + 1) * b + (r2 + 2 ^ s)) % 2 ^ s = r2 := by
      rw [show (2:ℕ) ^ (s + 1) * b + (r2 + 2 ^ s) =
          r2 + 2 ^ s * (2 * b + 1) from by ring]
      rw [Nat.add_mul_mod_self_left]
      exact Nat.mod_eq_of_lt hr2lt
    have hperiod : (2:ℕ) ^ (d + 1) * 2 ^ s = 2 ^ L := by
      rw [← pow_add]
      congr 1
      omega
    have hhalf : (2:ℕ) ^ s * 2 ^ d = 2 ^ (L - 1) := by
      rw [← pow_add]
      congr 1
      omega
    have hL1 : 1 ≤ L := by omega
    have heven : (∑ u ∈ Finset.range (2 ^ s),
        x (2 * u * 2 ^ d + reverseBits b d) *
          wexp (2 ^ L) (2 ^ d * ((r2 + 2 ^ s) * (2 * u)))) =
        stageVal L s x (2 ^ (s + 1) * b + r2) := by
      rw [stageVal, hds, hdiv2, hmod2, reverseBits_two_mul]
      apply Finset.sum_congr rfl
      intro u hu
      rw [show 2 * u * 2 ^ d = u * 2 ^ (d + 1) from by ring]
      rw [show 2 ^ d * ((r2 + 2 ^ s) * (2 * u)) =
          2 ^ (d + 1) * (r2 * u) + 2 ^ L * u from by rw [← hperiod]; ring]
      rw [wexp_period]
    have hodd : (∑ u ∈ Finset.range (2 ^ s),
        x ((2 * u + 1) * 2 ^ d + reverseBits b d) *
          wexp (2 ^ L) (2 ^ d * ((r2 + 2 ^ s) * (2 * u + 1)))) =
        -(wexp (2 ^ L) (r2 * 2 ^ d) *
          stageVal L s x (2 ^ (s + 1) * b + (r2 + 2 ^ s))) := by
      rw [stageVal, hds, hdiv3, hmod3, reverseBits_two_mul_add_one,
        Finset.mul_sum, ← Finset.sum_neg_distrib]
      apply Finset.sum_congr rfl
      intro u hu
      rw [show (2 * u + 1) * 2 ^ d + reverseBits b d =
          u * 2 ^ (d + 1) + (2 ^ d + reverseBits b d) from by ring]
      rw [show 2 ^ d * ((r2 + 2 ^ s) * (2 * u + 1)) =
          2 ^ (d + 1) * (r2 * u) + 2 ^ L * u + (r2 * 2 ^ d + 2 ^ (L - 1))
          from by rw [← hperiod, ← hhalf]; ring]
      rw [wexp_add, wexp_period, wexp_add, wexp_half L hL1]
      ring
    rw [heven, hodd]
    ring

theorem foldl_scan_some (n : ℕ) (l : List ℕ) : ∀ (acc : Option ℕ) (v : ℕ),
    l.foldl (fun a i => if jsShl1 i = (n : ℤ) then some i else a) acc = some v →
    acc = some v ∨ (v ∈ l ∧ jsShl1 v = (n : ℤ)) := by
  induction l with
  | nil => intro acc v h; exact Or.inl h
  | cons x xs ih =>
    intro acc v h
    rw [List.foldl_cons] at h
    by_cases hx : jsShl1 x = (n : ℤ)
    · rw [if_pos hx] at h
      rcases ih (some x) v h with h1 | h2
      · cases h1
        exact Or.inr ⟨List.mem_cons_self _ _, hx⟩
      · exact Or.inr ⟨List.mem_cons_of_mem _ h2.1, h2.2⟩
    · rw [if_neg hx] at h
      rcases ih acc v h with h1 | h2
      · exact Or.inl h1
      · exact Or.inr ⟨List.mem_cons_of_mem _ h2.1, h2.2⟩

theorem fftLevels_some (n l : ℕ) (h : fftLevels n = some l) :
    n = 2 ^ l ∧ l ≤ 30 := by
  unfold fftLevels at h
  rcases foldl_scan_some n (List.range 32) none l h with h1 | ⟨hmem, heq⟩
  · cases h1
  · by_cases h30 : l ≤ 30
    · rw [jsShl1_small l h30] at heq
      exact ⟨by exact_mod_cast heq.symm, h30⟩
    · have h32 : l < 32 := List.mem_range.mp hmem
      have h31 : l = 31 := by omega
      subst h31
      rw [jsShl1_31] at heq
      have hn : (0 : ℤ) ≤ (n : ℤ) := Int.ofNat_nonneg n
      omega

theorem fftNew_some {F : Type} (mkCos mkSin : ℕ → ℕ → F) (n : ℕ)
    (fft : FFTObj F) (h : fftNew mkCos mkSin n = some fft) :
    fft.n = n ∧ n = 2 ^ fft.levels ∧ fft.cosTable = mkCos n ∧
      fft.sinTable = mkSin n := by
  unfold fftNew at h
  cases hl : fftLevels n with
  | none => rw [hl] at h; cases h
  | some l =>
    rw [hl] at h
    cases h
    obtain ⟨h1, _⟩ := fftLevels_some n l hl
    exact ⟨rfl, h1, rfl, rfl⟩

/-- Prefix of the outer Cooley-Tukey loop: the stages of sizes
`2, 4, …, 2^m`. -/
def stagesIter {F : Type} [LinearOrderedField F] (cosT sinT : ℕ → F)
    (n m : ℕ) (st : (ℕ → F) × (ℕ → F)) : (ℕ → F) × (ℕ → F) :=
  (List.range m).foldl (fun s t => butterflyStage cosT sinT n (2 ^ (t + 1)) s) st

theorem fftForward_eq_stagesIter {F : Type} [LinearOrderedField F]
    (cosT sinT : ℕ → F) (n levels : ℕ) (st : (ℕ → F) × (ℕ → F)) :
    fftForward cosT sinT n levels st =
      stagesIter cosT sinT n levels (bitrevPass n levels st) := rfl

theorem stagesIter_succ {F : Type} [LinearOrderedField F] (cosT sinT : ℕ → F)
    (n m : ℕ) (st : (ℕ → F) × (ℕ → F)) :
    stagesIter cosT sinT n (m + 1) st =
      butterflyStage cosT sinT n (2 ^ (m + 1)) (stagesIter cosT sinT n m st) := by
  rw [stagesIter, stagesIter, List.range_succ, List.foldl_append]
  rfl

theorem Zc_stagesIter (L : ℕ) (st : (ℕ → ℝ) × (ℕ → ℝ)) :
    ∀ s, s ≤ L → ∀ p, p < 2 ^ L →
      Zc (stagesIter (mkCosR (2 ^ L)) (mkSinR (2 ^ L)) (2 ^ L) s
          (bitrevPass (2 ^ L) L st)) p = stageVal L s (Zc st) p := by
  intro s
  induction s with
  | zero =>
    intro _ p hp
    rw [show stagesIter (mkCosR (2 ^ L)) (mkSinR (2 ^ L)) (2 ^ L) 0
        (bitrevPass (2 ^ L) L st) = bitrevPass (2 ^ L) L st from rfl]
    rw [bitrevPass_eq_brIter, Zc_brIter L (2 ^ L) (le_refl _) st p hp,
      if_pos (Or.inl hp), stageVal_zero]
  | succ s ih =>
    intro hs p hp
    have hs' : s ≤ L := by omega
    have hsL : s < L := by omega
    have hmul2 : (2:ℕ) ^ (s + 1) * 2 ^ (L - s - 1) = 2 ^ L := by
      rw [← pow_add]
      congr 1
      omega
    have hmul : (2:ℕ) ^ (L - s - 1) * 2 ^ (s + 1) = 2 ^ L := by
      rw [← pow_add]
      congr 1
      omega
    have hts : (2:ℕ) ^ L / 2 ^ (s + 1) = 2 ^ (L - s - 1) := by
      conv_lhs => rw [← hmul2]
      rw [Nat.mul_div_cancel_left _ (by positivity : (0:ℕ) < 2 ^ (s + 1))]
    rw [stagesIter_succ, butterflyStage_eq_stageIter, hts]
    rw [Zc_stageIter (2 ^ L) (2 ^ s) (2 ^ (L - s - 1)) (2 ^ (s + 1))
      (by positivity) (by ring) hts.symm (2 ^ (L - s - 1))
      (stagesIter (mkCosR (2 ^ L)) (mkSinR (2 ^ L)) (2 ^ L) s
        (bitrevPass (2 ^ L) L st)) p]
    rw [hmul, if_pos hp]
    rw [stageVal_succ L s hsL]
    by_cases hc : p % 2 ^ (s + 1) < 2 ^ s
    · have h2 : p / 2 ^ (s + 1) < 2 ^ (L - s - 1) := by
        apply Nat.div_lt_of_lt_mul
        rw [hmul2]
        exact hp
      have h3 := Nat.div_add_mod p (2 ^ (s + 1))
      have h4 : p % 2 ^ (s + 1) + 2 ^ s < 2 ^ (s + 1) := by
        have hss : (2:ℕ) ^ (s + 1) = 2 * 2 ^ s := by ring
        omega
      have hps : p + 2 ^ s < 2 ^ L := by
        calc p + 2 ^ s < 2 ^ (s + 1) * (p / 2 ^ (s + 1)) + 2 ^ (s + 1) := by
              omega
          _ = 2 ^ (s + 1) * (p / 2 ^ (s + 1) + 1) := by ring
          _ ≤ 2 ^ (s + 1) * 2 ^ (L - s - 1) :=
              Nat.mul_le_mul_left _ (by omega)
          _ = 2 ^ L := hmul2
      rw [if_pos hc, if_pos hc, ih hs' p hp, ih hs' (p + 2 ^ s) hps]
    · have hms : p - 2 ^ s < 2 ^ L := by omega
      rw [if_neg hc, if_neg hc, ih hs' p hp, ih hs' (p - 2 ^ s) hms]

theorem fft_forward_dft (L : ℕ) (st : (ℕ → ℝ) × (ℕ → ℝ)) (k : ℕ)
    (hk : k < 2 ^ L) :
    Zc (fftForward (mkCosR (2 ^ L)) (mkSinR (2 ^ L)) (2 ^ L) L st) k =
      dftSpec (2 ^ L) (Zc st) k := by
  rw [fftForward_eq_stagesIter, Zc_stagesIter L st L (le_refl L) k hk]
  exact stageVal_last L (Zc st) k hk

/-- C3: for an engine built by the constructor (power-of-two size `n`,
`levels = log2 n`, trigonometric tables `cos/sin(2πk/n)`), `forward` on
length-`n` real/imaginary arrays leaves in them exactly the discrete
Fourier transform of the complex input vector, computed by the bit-reversal
permutation followed by the iterated Cooley-Tukey butterflies; and the
spectrum it exposes (modelled from the spec: the `calculateSpectrum` body is
absent from src) is `sqrt(real[i]^2 + imag[i]^2)` for the first `n/2` bins. -/
theorem claim_C3 (n : ℕ) (fft : FFTObj ℝ)
    (hnew : fftNew mkCosR mkSinR n = some fft)
    (re im : ℕ → ℝ) (k : ℕ) (hk : k < n) :
    (((fftForward fft.cosTable fft.sinTable fft.n fft.levels (re, im)).1 k : ℂ) +
        Complex.I *
          (fftForward fft.cosTable fft.sinTable fft.n fft.levels (re, im)).2 k =
      dftSpec n (fun t => (re t : ℂ) + Complex.I * im t) k) ∧
    ∀ sq : ℝ → ℝ,
      calculateSpectrum sq n
          (fftForward fft.cosTable fft.sinTable fft.n fft.levels (re, im)) =
        (List.range (n / 2)).map (fun i =>
          sq ((fftForward fft.cosTable fft.sinTable fft.n fft.levels
                (re, im)).1 i ^ 2 +
              (fftForward fft.cosTable fft.sinTable fft.n fft.levels
                (re, im)).2 i ^ 2)) := by
  obtain ⟨hn, hpow, hcos, hsin⟩ := fftNew_some mkCosR mkSinR n fft hnew
  constructor
  · rw [hn, hcos, hsin, hpow]
    have hk2 : k < 2 ^ fft.levels := by rw [← hpow]; exact hk
    exact fft_forward_dft fft.levels (re, im) k hk2
  · intro sq
    rfl

/-- The engine the constructor builds for size 1 (`levels = 0`). -/
noncomputable def fftOneR : FFTObj ℝ := ⟨1, 0, mkCosR 1, mkSinR 1⟩

theorem claim_C3_witness :
    fftNew mkCosR mkSinR 1 = some fftOneR ∧
    (((fftForward fftOneR.cosTable fftOneR.sinTable fftOneR.n fftOneR.levels
        ((fun _ => 1), (fun _ => 0))).1 0 : ℂ) +
      Complex.I * (fftForward fftOneR.cosTable fftOneR.sinTable fftOneR.n
        fftOneR.levels ((fun _ => 1), (fun _ => 0))).2 0 =
      dftSpec 1 (fun t => (((1:ℝ)) : ℂ) + Complex.I * (((0:ℝ)) : ℂ)) 0) :=
  ⟨rfl, (claim_C3 1 fftOneR rfl (fun _ => 1) (fun _ => 0) 0 (by decide)).1⟩
